import Mathlib

/-!
Verification of the flashcard parser and the `gameplan` API handler of the
coaching web application (files `src/pages/chat.tsx` and
`src/pages/api/gameplan.ts`).

Strings are modelled as `List Char`.  JavaScript `String.prototype.trim`,
`split("\n")`, `startsWith` and the concrete regular expressions used by the
source are given explicit executable models below.
-/

namespace Gameplan

/-- Model of a JavaScript whitespace character (used by `trim` and `\s`). -/
def isWS (c : Char) : Bool := c.isWhitespace

/-- Remove trailing whitespace (the right half of `String.prototype.trim`). -/
def trimEndL (l : List Char) : List Char := (l.reverse.dropWhile isWS).reverse

/-- Model of `String.prototype.trim`: drop trailing then leading whitespace. -/
def trimL (l : List Char) : List Char := (trimEndL l).dropWhile isWS

/-- Model of `content.split("\n")`: split a character list at every `'\n'`.
The result is always non-empty, and contains no `'\n'`. -/
def splitNl : List Char → List (List Char)
  | [] => [[]]
  | c :: rest =>
    if c = '\n' then [] :: splitNl rest
    else
      match splitNl rest with
      | [] => [[c]]
      | l :: ls => (c :: l) :: ls

/-- Join a list of lines with `'\n'` separators (inverse of `splitNl` on
newline-free lines); used to build concrete input strings. -/
def joinLines : List (List Char) → List Char
  | [] => []
  | [l] => l
  | l :: ls => l ++ '\n' :: joinLines ls

/-! ### Character classes and literal fragments used by the parser -/

/-- JS `\d`. -/
def isDigitC (c : Char) : Bool := c.isDigit

/-- The character class `[\w-]` of the YouTube-URL regex (`\w` = `[A-Za-z0-9_]`,
plus the literal `-`). -/
def isWordHy (c : Char) : Bool := c.isAlpha || c.isDigit || c = '_' || c = '-'

def videoPfx : List Char := ['V', 'i', 'd', 'e', 'o', ':', ' ']
def descPfx : List Char := ['D', 'e', 's', 'c', 'r', 'i', 'p', 't', 'i', 'o', 'n', ':']
def questionsPfx : List Char := ['Q', 'u', 'e', 's', 't', 'i', 'o', 'n', 's', ':']
def correctPfx : List Char := ['C', 'o', 'r', 'r', 'e', 'c', 't', ':']

/-! ### Model of the YouTube URL regex

`content.match(/https?:\/\/(www\.)?youtube\.com\/watch\?v=[\w-]+/i)` returns
the leftmost match (or null).  The pattern is a case-insensitive literal with
two optional groups and a final greedy `[\w-]+`. -/

/-- Consume `pat` case-insensitively from the front of `s`; return the rest. -/
def matchCI : List Char → List Char → Option (List Char)
  | [], s => some s
  | _ :: _, [] => none
  | p :: ps, c :: cs => if c.toLower = p.toLower then matchCI ps cs else none

def httpLit : List Char := ['h', 't', 't', 'p']
def sSepLit : List Char := ['s', ':', '/', '/']
def sepLit : List Char := [':', '/', '/']
def wwwLit : List Char := ['w', 'w', 'w', '.']
def ytLit : List Char :=
  ['y', 'o', 'u', 't', 'u', 'b', 'e', '.', 'c', 'o', 'm', '/',
   'w', 'a', 't', 'c', 'h', '?', 'v', '=']

/-- The tail of the regex: the literal `youtube.com/watch?v=` followed by the
greedy `[\w-]+`.  `s` is the whole attempt (for the match length). -/
def ytTail (s r3 : List Char) : Option Nat :=
  match matchCI ytLit r3 with
  | none => none
  | some r4 =>
    if (r4.takeWhile isWordHy).isEmpty then none
    else some (s.length - r4.length + (r4.takeWhile isWordHy).length)

/-- The optional `(www\.)?` group: try with the group, fall back to skipping
it (greedy regex backtracking). -/
def afterScheme (s r2 : List Char) : Option Nat :=
  match matchCI wwwLit r2 with
  | some rw => (ytTail s rw).orElse fun _ => ytTail s r2
  | none => ytTail s r2

/-- Try to match the full YouTube regex at the start of `s`; return the match
length.  `https?` is handled by trying `s://` first, then `://`. -/
def tryMatchAt (s : List Char) : Option Nat :=
  match matchCI httpLit s with
  | none => none
  | some r1 =>
    match matchCI sSepLit r1 with
    | some r2 => afterScheme s r2
    | none =>
      match matchCI sepLit r1 with
      | some r2 => afterScheme s r2
      | none => none

/-- Leftmost match of the YouTube regex in `s` (model of `content.match(...)`
with a non-global regex: first position whose match attempt succeeds). -/
def findYoutube : List Char → Option (List Char)
  | [] => none
  | c :: rest =>
    match tryMatchAt (c :: rest) with
    | some n => some ((c :: rest).take n)
    | none => findYoutube rest

/-! ### Line-pattern tests and strippers (the regexes of the question loop) -/

/-- `/^\d+\.\s/.test(line)`: digits, a dot, then a whitespace character. -/
def testNum (l : List Char) : Bool :=
  !(l.takeWhile isDigitC).isEmpty &&
    match l.drop (l.takeWhile isDigitC).length with
    | '.' :: c :: _ => isWS c
    | _ => false

/-- `line.replace(/^\d+\.\s*/, "")`. -/
def stripNum (l : List Char) : List Char :=
  if !(l.takeWhile isDigitC).isEmpty then
    match l.drop (l.takeWhile isDigitC).length with
    | '.' :: rest => rest.dropWhile isWS
    | _ => l
  else l

/-- `/^[a-d]\)/i.test(line)`. -/
def testOpt (l : List Char) : Bool :=
  match l with
  | c1 :: c2 :: _ =>
    (c1.toLower = 'a' || c1.toLower = 'b' || c1.toLower = 'c' || c1.toLower = 'd') && c2 = ')'
  | _ => false

/-- `line.replace(/^[a-d]\)\s*/, "")` — note: case-sensitive, unlike the test. -/
def stripOpt (l : List Char) : List Char :=
  match l with
  | c1 :: ')' :: rest =>
    if c1 = 'a' || c1 = 'b' || c1 = 'c' || c1 = 'd' then rest.dropWhile isWS else l
  | _ => l

/-- `/^Correct:/i.test(line)`. -/
def testCorrect (l : List Char) : Bool :=
  (l.take correctPfx.length).map Char.toLower = correctPfx.map Char.toLower

/-- `line.replace(/^Correct:\s*/, "")` — case-sensitive, unlike the test. -/
def stripCorrect (l : List Char) : List Char :=
  if correctPfx.isPrefixOf l then (l.drop correctPfx.length).dropWhile isWS else l

/-! ### The flashcard parser (`parseFlashcardContent` in `src/pages/chat.tsx`) -/

structure MCQ where
  prompt : List Char
  options : List (List Char)
  correct : List Char
  deriving DecidableEq, Repr

structure FlashcardParsed where
  videoUrl : Option (List Char)
  descriptionLines : List (List Char)
  questions : List MCQ
  deriving DecidableEq, Repr

/-- `lines.filter(l => !l.startsWith("Video: ")).map(l => l.trim()).filter(l => l !== "")`. -/
def cleanPipeline (ls : List (List Char)) : List (List Char) :=
  (((ls.filter fun l => !(videoPfx.isPrefixOf l)).map trimL).filter
    fun l => !l.isEmpty)

/-- `content.split("\n")` followed by `cleanPipeline`. -/
def cleanedLines (content : List Char) : List (List Char) :=
  cleanPipeline (splitNl content)

/-- `line.replace("Description:", "").trim()`: `line` is known to start with
`"Description:"`, so replacing the first occurrence drops that prefix. -/
def stripDesc (l : List Char) : List Char := trimL (l.drop descPfx.length)

/-- The first loop of `parseFlashcardContent`: collect `descriptionLines`
(from lines starting with `"Description:"`) and `questionsSection` (lines
seen after a `"Questions:"` line), in order.  The boolean is `inQuestions`. -/
def splitSections : List (List Char) → Bool → List (List Char) × List (List Char)
  | [], _ => ([], [])
  | l :: ls, inQ =>
    if descPfx.isPrefixOf l then
      let r := splitSections ls inQ
      (stripDesc l :: r.1, r.2)
    else if questionsPfx.isPrefixOf l then
      splitSections ls true
    else if inQ then
      let r := splitSections ls inQ
      (r.1, l :: r.2)
    else
      splitSections ls inQ

/-- The second loop of `parseFlashcardContent`: group the question-section
lines into `MCQ` records.  `cur` is `currentQ`; a finished record is emitted
when a new numbered line starts, and the final record is flushed at the end. -/
def parseQuestionLines : List (List Char) → Option MCQ → List MCQ
  | [], cur => match cur with | some q => [q] | none => []
  | rawLine :: rest, cur =>
    let line := trimL rawLine
    if testNum line then
      let newQ : MCQ := ⟨trimL (stripNum line), [], []⟩
      match cur with
      | some q => q :: parseQuestionLines rest (some newQ)
      | none => parseQuestionLines rest (some newQ)
    else if testOpt line then
      match cur with
      | some q => parseQuestionLines rest (some ⟨q.prompt, q.options ++ [trimL (stripOpt line)], q.correct⟩)
      | none => parseQuestionLines rest none
    else if testCorrect line then
      match cur with
      | some q => parseQuestionLines rest (some ⟨q.prompt, q.options, trimL (stripCorrect line)⟩)
      | none => parseQuestionLines rest none
    else
      match cur with
      | some q =>
        if !q.options.isEmpty then
          parseQuestionLines rest
            (some ⟨q.prompt, q.options.set (q.options.length - 1)
              ((q.options.getLastD []) ++ ' ' :: line), q.correct⟩)
        else
          parseQuestionLines rest (some ⟨q.prompt ++ ' ' :: line, q.options, q.correct⟩)
      | none => parseQuestionLines rest none

/-- `parseFlashcardContent` from `src/pages/chat.tsx` (the copy in
`src/pages/portfolio/[id].tsx` differs only in trimming lines after, instead
of before, the section scan). -/
def parseFlashcardContent (content : List Char) : FlashcardParsed :=
  let videoUrl := findYoutube content
  let sections := splitSections (cleanedLines content) false
  ⟨videoUrl, sections.1, parseQuestionLines sections.2 none⟩


/-! ### Claim-side characterizations of the section split -/

/-- The description lines actually collected by the parser: the remainder of
every cleaned line that starts with `"Description:"`. -/
def descMarkedLines (ls : List (List Char)) : List (List Char) :=
  ls.filterMap fun l => if descPfx.isPrefixOf l then some (stripDesc l) else none

/-- The question-section lines actually collected by the parser: the cleaned
lines after the first `"Questions:"` line, except those routed elsewhere
(lines starting with `"Description:"` or `"Questions:"`). -/
def questionBlock (ls : List (List Char)) : List (List Char) :=
  (((ls.dropWhile fun l => !(questionsPfx.isPrefixOf l)).drop 1).filter
    fun l => !(descPfx.isPrefixOf l) && !(questionsPfx.isPrefixOf l))

/-- The lines admitted to the question section once `inQuestions` is set. -/
def questionTail (ls : List (List Char)) : List (List Char) :=
  ls.filter fun l => !(descPfx.isPrefixOf l) && !(questionsPfx.isPrefixOf l)

/-- The spec's description block, read literally: the remainder of the first
`"Description:"` line together with the following lines up to the
`"Questions:"` line.  (Claim C3 says the parser produces this.) -/
def specDescBlock (content : List Char) : List (List Char) :=
  match (cleanedLines content).dropWhile (fun l => !(descPfx.isPrefixOf l)) with
  | [] => []
  | d :: rest => stripDesc d :: rest.takeWhile fun l => !(questionsPfx.isPrefixOf l)

/-- The "last open field" of a record in the sense of claim C2: a
continuation line is appended (with a space) to the most recent option if any
option is open, otherwise to the prompt. -/
def appendToLastOpenField (q : MCQ) (line : List Char) : MCQ :=
  if q.options.isEmpty then ⟨q.prompt ++ ' ' :: line, q.options, q.correct⟩
  else ⟨q.prompt, q.options.dropLast ++ [q.options.getLastD [] ++ ' ' :: line], q.correct⟩

/-! ### Well-formed flashcard inputs (claims C1 and C4)

A well-formed input is rendered from structured data: a `"Video:"` line, one
`"Description:"` line per description line, a `"Questions:"` line, and per
question a numbered prompt line, option lines `a)` to `d)` and a
`"Correct: <letter>"` line. -/

def digitChars : List Char := ['0', '1', '2', '3', '4', '5', '6', '7', '8', '9']

/-- Decimal digits of `n`, most significant first (`fuel` bounds the
recursion depth structurally so that the definition computes). -/
def natDigitsAux : Nat → Nat → List Char
  | 0, _ => []
  | fuel + 1, n =>
    if n < 10 then [digitChars.getD n '0']
    else natDigitsAux fuel (n / 10) ++ [digitChars.getD (n % 10) '0']

/-- Decimal digits of `n`, most significant first. -/
def natDigits (n : Nat) : List Char := natDigitsAux (n + 1) n

structure WfQuestion where
  prompt : List Char
  optA : List Char
  optB : List Char
  optC : List Char
  optD : List Char
  letter : Char
  deriving DecidableEq, Repr

/-- Side conditions making a rendered question block well-formed: a prompt
that is non-empty after trimming, single-line fields, and a correct letter
among `a`–`d`. -/
def WfQ (q : WfQuestion) : Prop :=
  trimL q.prompt ≠ [] ∧ '\n' ∉ q.prompt ∧
    '\n' ∉ q.optA ∧ '\n' ∉ q.optB ∧ '\n' ∉ q.optC ∧ '\n' ∉ q.optD ∧
    q.letter ∈ (['a', 'b', 'c', 'd'] : List Char)

instance (q : WfQuestion) : Decidable (WfQ q) := by unfold WfQ; infer_instance

def numLine (n : Nat) (p : List Char) : List Char := natDigits n ++ '.' :: ' ' :: p
def optLine (label : Char) (o : List Char) : List Char := label :: ')' :: ' ' :: o
def corLine (letter : Char) : List Char := correctPfx ++ ' ' :: [letter]
def descLine (d : List Char) : List Char := descPfx ++ ' ' :: d
def vidLine (u : List Char) : List Char := videoPfx ++ u

/-- The raw lines of the question blocks, numbered from `n`. -/
def renderQBlocks : Nat → List WfQuestion → List (List Char)
  | _, [] => []
  | n, q :: qs =>
    numLine n q.prompt :: optLine 'a' q.optA :: optLine 'b' q.optB ::
      optLine 'c' q.optC :: optLine 'd' q.optD :: corLine q.letter ::
      renderQBlocks (n + 1) qs

/-- A well-formed flashcard input string, as described by the spec. -/
def renderFlashcard (url : List Char) (descs : List (List Char))
    (qs : List WfQuestion) : List Char :=
  joinLines (vidLine url :: (descs.map descLine ++ questionsPfx :: renderQBlocks 1 qs))

/-- The record the parser extracts from a well-formed question block. -/
def expectedMCQ (q : WfQuestion) : MCQ :=
  ⟨trimL q.prompt, [trimL q.optA, trimL q.optB, trimL q.optC, trimL q.optD], [q.letter]⟩

/-- A canonical YouTube watch URL (claim C9): scheme `http`/`https`, optional
`www.`, and a non-empty id of word characters. -/
def mkYoutubeUrl (secure www : Bool) (vid : List Char) : List Char :=
  (if secure then "https://".data else "http://".data) ++
    (if www then "www.".data else []) ++ "youtube.com/watch?v=".data ++ vid

/-! ### The `gameplan` API handler (`src/pages/api/gameplan.ts`)

The handler is embedded as a pure function over an environment that fixes the
behaviour of its collaborators: the request (method, session, body), the
OpenAI call, `JSON.parse`, and the three database inserts.  A thrown JS
exception is modelled as `Except.error` / `Option.none` at the corresponding
boundary; the handler itself never throws (every path ends in an HTTP
response), which the totality of `gameplanHandler` reflects.  The handler
also records the externally visible actions it performs, in order. -/

/-- A JSON value (`JSON.parse` result).  Numbers are modelled as integers;
no claim depends on numeric values. -/
inductive Jv where
  | null
  | boolean (b : Bool)
  | num (n : Int)
  | str (s : List Char)
  | arr (elems : List Jv)
  | obj (fields : List (List Char × Jv))

def Jv.isStr : Jv → Bool
  | .str _ => true
  | _ => false

def lookupField : List (List Char × Jv) → List Char → Option Jv
  | [], _ => none
  | (k, v) :: fs, key => if k = key then some v else lookupField fs key

/-- JS `key in item` (for the values the handler can meet). -/
def Jv.member : Jv → List Char → Bool
  | .obj fs, k => (lookupField fs k).isSome
  | _, _ => false

/-- `typeof item === "object" && item !== null` (arrays are objects in JS). -/
def Jv.isObjLike : Jv → Bool
  | .obj _ => true
  | .arr _ => true
  | _ => false

def Jv.getKey : Jv → List Char → Option Jv
  | .obj fs, k => lookupField fs k
  | _, _ => none

/-- JS property access `v.k` used as `parsed.goals`: throws (TypeError) on
`null`, yields `undefined` (here `none`) on other non-objects. -/
def Jv.accessField : Jv → List Char → Except Unit (Option Jv)
  | .null, _ => .error ()
  | .obj fs, k => .ok (lookupField fs k)
  | _, _ => .ok none

mutual

/-- JS template-literal coercion `${v}` (`String(v)`).  Only the string case
is exercised by the claims; the other cases model JS coercion: arrays join
their elements with commas (`null` becoming empty), objects print as
`[object Object]`. -/
def jvTemplate : Jv → List Char
  | .null => "null".data
  | .boolean true => "true".data
  | .boolean false => "false".data
  | .num n => (toString n).data
  | .str s => s
  | .obj _ => "[object Object]".data
  | .arr xs => List.intercalate [','] (jvTemplateList xs)

/-- Array elements under `String(...)`: `null` becomes empty. -/
def jvTemplateList : List Jv → List (List Char)
  | [] => []
  | .null :: rest => [] :: jvTemplateList rest
  | v :: rest => jvTemplate v :: jvTemplateList rest

end

mutual

/-- Model of `JSON.stringify` (escaping only quote, backslash and newline;
claims do not depend on the escaping details). -/
def jvStringify : Jv → List Char
  | .null => "null".data
  | .boolean true => "true".data
  | .boolean false => "false".data
  | .num n => (toString n).data
  | .str s =>
    '"' :: (s.map fun c =>
      if c = '"' then ['\\', '"'] else if c = '\\' then ['\\', '\\']
      else if c = '\n' then ['\\', 'n'] else [c]).flatten ++ ['"']
  | .arr xs => '[' :: List.intercalate [','] (jvStringifyList xs) ++ [']']
  | .obj fs => '{' :: List.intercalate [','] (jvStringifyFields fs) ++ ['}']

def jvStringifyList : List Jv → List (List Char)
  | [] => []
  | v :: rest => jvStringify v :: jvStringifyList rest

def jvStringifyFields : List (List Char × Jv) → List (List Char)
  | [] => []
  | (k, v) :: rest => ('"' :: k ++ '"' :: ':' :: jvStringify v) :: jvStringifyFields rest

end

/-- The question lines appended by the normalizer: string entries become
lines, non-string entries contribute nothing. -/
def questionLinesBlock : List Jv → List Char
  | [] => []
  | .str s :: rest => s ++ '\n' :: questionLinesBlock rest
  | _ :: rest => questionLinesBlock rest

/-- The raw string the normalizer builds for an object-shaped flashcard. -/
def buildFlashcardString (vu ds : List Char) (qlines : List Jv) : List Char :=
  videoPfx ++ vu ++ '\n' :: (descPfx ++ ' ' :: ds) ++ '\n' :: questionsPfx ++
    '\n' :: questionLinesBlock qlines

/-- The `for...of` loop over `obj.questions`: an array iterates its
elements, a string iterates its characters, anything else throws. -/
def normalizeObjQuestions (vu ds : List Char) : Jv → Except Unit (List Char)
  | .arr qlines => .ok (trimL (buildFlashcardString vu ds qlines))
  | .str s => .ok (trimL (buildFlashcardString vu ds (s.map fun c => Jv.str [c])))
  | _ => .error ()

/-- Normalization of one flashcard (the `rawFlashcards.map` body): strings
are trimmed; objects with the three expected keys are rendered into the
format the front-end parser expects; anything else is stringified. -/
def normalizeFlashcard (item : Jv) : Except Unit (List Char) :=
  match item with
  | .str s => .ok (trimL s)
  | _ =>
    if item.isObjLike && item.member "video_url".data &&
        item.member "description".data && item.member "questions".data then
      normalizeObjQuestions (jvTemplate ((item.getKey "video_url".data).getD .null))
        (jvTemplate ((item.getKey "description".data).getD .null))
        ((item.getKey "questions".data).getD .null)
    else
      .ok (jvStringify item)

def normalizeFlashcards : List Jv → Except Unit (List (List Char))
  | [] => .ok []
  | item :: rest => do
    let s ← normalizeFlashcard item
    let others ← normalizeFlashcards rest
    pure (s :: others)

/-- Model of `raw.match(/\{[\s\S]*\}/)`: the substring from the first `{` to
the last `}` when the latter comes after the former, else no match. -/
def extractJsonObject (s : List Char) : Option (List Char) :=
  let fromBrace := s.dropWhile fun c => !(c = '{')
  let m := (fromBrace.reverse.dropWhile fun c => !(c = '}')).reverse
  if m.isEmpty then none else some m

/-- Externally visible actions of the handler, in program order. -/
inductive Effect where
  | authCheck
  | llmCall
  | dbWrite (table : List Char)
  deriving DecidableEq, Repr

structure GoalReturn where
  id : List Char
  description : List Char
  deriving DecidableEq, Repr

structure GameplanResponse where
  gameplanId : Option (List Char)
  goals : List GoalReturn
  flashcards : List (List Char)
  deriving DecidableEq, Repr

inductive HandlerBody where
  | ok (resp : GameplanResponse)
  | err (msg : List Char)
  deriving DecidableEq, Repr

structure HandlerResult where
  status : Nat
  allow : Option (List (List Char))
  body : HandlerBody
  effects : List Effect
  deriving DecidableEq, Repr

/-- The world the handler runs in: the request and the behaviour of every
external collaborator. -/
structure GameplanEnv where
  method : List Char
  session : Option (List Char)
  bodyUserId : Jv
  bodyTopic : Jv
  bodySkill : Jv
  apiKey : Option (List Char)
  /-- The OpenAI call: a thrown error, or the optional message content. -/
  llm : Except (List Char) (Option (List Char))
  /-- `JSON.parse`: `none` models a thrown `SyntaxError`. -/
  jsonParse : List Char → Option Jv
  /-- The `gameplans` insert: the returned id, or `none` on error. -/
  dbInsertGameplan : Option (List Char)
  /-- The `goals` insert: the returned `(id, description)` rows, or `none`. -/
  dbInsertGoals : List (List Char) → Option (List (List Char × List Char))

def postLit : List Char := "POST".data
def unauthorizedMsg : List Char := "Unauthorized".data
def invalidBodyMsg : List Char := "Invalid request body".data
def missingKeyMsg : List Char := "Server misconfiguration: missing OpenAI API key".data
def malformedDataMsg : List Char := "Malformed gameplan data from OpenAI.".data
def malformedGoalsMsg : List Char := "Malformed goals array from OpenAI.".data
def malformedFcsMsg : List Char := "Malformed flashcards array from OpenAI.".data
def genericFailMsg : List Char := "Failed to generate gameplan. Please try again.".data

def methodNotAllowedMsg (m : List Char) : List Char :=
  "Method ".data ++ m ++ " Not Allowed".data

def isStringArray : Option Jv → Bool
  | some (.arr xs) => xs.all Jv.isStr
  | _ => false

/-- The `as string[]` cast after the all-strings check. -/
def strValues (xs : List Jv) : List (List Char) :=
  xs.map fun x => match x with | .str s => s | _ => []

/-- The database phase: insert the gameplan row, then (when an id came back
and is truthy) the goals and flashcards rows, and build the 200 response.
A failed gameplan insert is only logged: the handler still answers 200, with
no gameplan id and no inserted goals. -/
def persistAndRespond (env : GameplanEnv) (goals : List (List Char))
    (normalized : List (List Char)) (effs : List Effect) : HandlerResult :=
  let effs1 := effs ++ [.dbWrite "gameplans".data]
  match env.dbInsertGameplan with
  | none => ⟨200, none, .ok ⟨none, [], normalized⟩, effs1⟩
  | some gid =>
    if gid.isEmpty then ⟨200, none, .ok ⟨some gid, [], normalized⟩, effs1⟩
    else
      let returnedGoals :=
        match env.dbInsertGoals goals with
        | none => []
        | some rows => rows.map fun r => GoalReturn.mk r.1 r.2
      ⟨200, none, .ok ⟨some gid, returnedGoals, normalized⟩,
        effs1 ++ [.dbWrite "goals".data, .dbWrite "flashcards".data]⟩

/-- The goal descriptions of the validated payload (`parsed.goals as string[]`). -/
def goalsArrayStrings (gv : Option Jv) : List (List Char) :=
  match gv with
  | some (.arr gs) => strValues gs
  | _ => []

/-- Outcome of normalizing the flashcards: a modelled throw (`.error`) lands
in the surrounding `catch`, which answers 500 with the generic message. -/
def normStage (env : GameplanEnv) (goalStrs : List (List Char))
    (effs : List Effect) : Except Unit (List (List Char)) → HandlerResult
  | .error _ => ⟨500, none, .err genericFailMsg, effs⟩
  | .ok normalized => persistAndRespond env goalStrs normalized effs

/-- The `Array.isArray(parsed.flashcards)` check and the flashcard map. -/
def flashcardsStage (env : GameplanEnv) (goalStrs : List (List Char))
    (effs : List Effect) : Option Jv → HandlerResult
  | some (.arr fcs) => normStage env goalStrs effs (normalizeFlashcards fcs)
  | _ => ⟨500, none, .err malformedFcsMsg, effs⟩

/-- The `parsed.flashcards` access (throws on `null`, caught outside). -/
def afterGoalsCheck (env : GameplanEnv) (gv : Option Jv)
    (effs : List Effect) : Except Unit (Option Jv) → HandlerResult
  | .error _ => ⟨500, none, .err genericFailMsg, effs⟩
  | .ok fv => flashcardsStage env (goalsArrayStrings gv) effs fv

/-- The `parsed.goals` access and the array-of-strings validation. -/
def goalsCheckStage (env : GameplanEnv) (parsed : Jv)
    (effs : List Effect) : Except Unit (Option Jv) → HandlerResult
  | .error _ => ⟨500, none, .err genericFailMsg, effs⟩
  | .ok gv =>
    if !isStringArray gv then ⟨500, none, .err malformedGoalsMsg, effs⟩
    else afterGoalsCheck env gv effs (parsed.accessField "flashcards".data)

/-- Validation and normalization of the parsed LLM payload, then persistence
(the body of the `try` block after `JSON.parse` succeeded). -/
def handleParsedGameplan (env : GameplanEnv) (parsed : Jv)
    (effs : List Effect) : HandlerResult :=
  goalsCheckStage env parsed effs (parsed.accessField "goals".data)

/-- The second `JSON.parse` attempt, on the regex-extracted substring. -/
def parsedStage (env : GameplanEnv) (effs : List Effect) : Option Jv → HandlerResult
  | none => ⟨500, none, .err genericFailMsg, effs⟩
  | some parsed => handleParsedGameplan env parsed effs

/-- Dispatch on the regex extraction of a JSON-object substring. -/
def extractStage (env : GameplanEnv) (effs : List Effect) :
    Option (List Char) → HandlerResult
  | none => ⟨500, none, .err malformedDataMsg, effs⟩
  | some sub => parsedStage env effs (env.jsonParse sub)

/-- Dispatch on the first `JSON.parse` attempt: on failure, try the regex
extraction of a JSON-object substring and parse that. -/
def jsonStage (env : GameplanEnv) (raw : List Char) (effs : List Effect) :
    Option Jv → HandlerResult
  | some parsed => handleParsedGameplan env parsed effs
  | none => extractStage env effs (extractJsonObject raw)

/-- The `try` block: the OpenAI call and everything after it. -/
def llmStage (env : GameplanEnv) :
    Except (List Char) (Option (List Char)) → HandlerResult
  | .error _ => ⟨500, none, .err genericFailMsg, [.authCheck, .llmCall]⟩
  | .ok contentOpt =>
    jsonStage env (contentOpt.getD []) [.authCheck, .llmCall]
      (env.jsonParse (contentOpt.getD []))

/-- The request handler of `src/pages/api/gameplan.ts`. -/
def gameplanHandler (env : GameplanEnv) : HandlerResult :=
  if env.method ≠ postLit then
    ⟨405, some [postLit], .err (methodNotAllowedMsg env.method), []⟩
  else
    match env.session with
    | none => ⟨401, none, .err unauthorizedMsg, [.authCheck]⟩
    | some _ =>
      if !(env.bodyUserId.isStr && env.bodyTopic.isStr && env.bodySkill.isStr) then
        ⟨400, none, .err invalidBodyMsg, [.authCheck]⟩
      else
        match env.apiKey with
        | none => ⟨500, none, .err missingKeyMsg, [.authCheck]⟩
        | some _ => llmStage env env.llm

/-! ### Goal status updates (`updateGoalStatus` in `src/pages/chat.tsx`) -/

structure Goal where
  id : List Char
  description : List Char
  status : List Char
  deriving DecidableEq, Repr

/-- The row transform of `updateGoalStatus`'s success path: both the
database update `.update({ status: newStatus }).eq("id", goalId)` and the
local `setCurrentGoals(prev => prev.map(...))` set the status of every goal
with the given id to the requested value, with no precondition on the
current status. -/
def applyGoalStatusUpdate (goals : List Goal) (goalId newStatus : List Char) :
    List Goal :=
  goals.map fun g => if g.id = goalId then ⟨g.id, g.description, newStatus⟩ else g

/-! ### Basic lemmas about trimming and splitting -/

theorem trimEndL_append (a b : List Char) :
    trimEndL (a ++ b) = if trimEndL b = [] then trimEndL a else a ++ trimEndL b := by
  unfold trimEndL
  rw [List.reverse_append, List.dropWhile_append]
  by_cases h : (List.dropWhile isWS b.reverse).isEmpty
  · simp only [h, if_true]
    rw [List.isEmpty_iff] at h
    simp [h]
  · simp only [h, if_false]
    rw [List.isEmpty_iff] at h
    have : ¬ ((List.dropWhile isWS b.reverse).reverse = []) := by
      simpa using h
    simp [this, List.reverse_append]

theorem trimEndL_cons_of_not_ws {c : Char} (h : isWS c = false) (xs : List Char) :
    trimEndL (c :: xs) = c :: trimEndL xs := by
  have : c :: xs = [c] ++ xs := rfl
  rw [this, trimEndL_append]
  by_cases hx : trimEndL xs = []
  · simp [hx, trimEndL, List.dropWhile, h]
  · simp [hx]

theorem trimEndL_nil : trimEndL [] = [] := rfl

theorem trimEndL_append_singleton_of_not_ws {c : Char} (h : isWS c = false)
    (xs : List Char) : trimEndL (xs ++ [c]) = xs ++ [c] := by
  unfold trimEndL
  rw [List.reverse_append]
  simp [List.dropWhile, h]

theorem trimEndL_ws_cons {c : Char} (h : isWS c = true) (xs : List Char) :
    trimEndL (c :: xs) = if trimEndL xs = [] then [] else c :: trimEndL xs := by
  have : c :: xs = [c] ++ xs := rfl
  rw [this, trimEndL_append]
  by_cases hx : trimEndL xs = []
  · simp [hx, trimEndL, List.dropWhile, h]
  · simp [hx]

theorem trimEndL_idem (l : List Char) : trimEndL (trimEndL l) = trimEndL l := by
  unfold trimEndL
  rw [List.reverse_reverse]
  induction l.reverse with
  | nil => rfl
  | cons c cs ih =>
    by_cases h : isWS c
    · simp [List.dropWhile_cons, h, ih]
    · simp [List.dropWhile_cons, h]

theorem trimL_cons_of_not_ws {c : Char} (h : isWS c = false) (xs : List Char) :
    trimL (c :: xs) = c :: trimEndL xs := by
  unfold trimL
  rw [trimEndL_cons_of_not_ws h, List.dropWhile_cons]
  simp [h]

theorem trimL_eq_dropWhile_trimEndL (l : List Char) :
    trimL l = (trimEndL l).dropWhile isWS := rfl

theorem trimL_trimEndL (l : List Char) : trimL (trimEndL l) = trimL l := by
  unfold trimL
  rw [trimEndL_idem]

theorem dropWhile_head_false {p : α → Bool} :
    ∀ {l : List α} {c : α} {cs : List α}, l.dropWhile p = c :: cs → p c = false := by
  intro l
  induction l with
  | nil => intro c cs h; simp [List.dropWhile] at h
  | cons a as ih =>
    intro c cs h
    rw [List.dropWhile_cons] at h
    by_cases ha : p a
    · simp only [ha, if_true] at h
      exact ih h
    · simp only [ha, if_false] at h
      cases h
      simpa using ha

theorem trimL_idem (l : List Char) : trimL (trimL l) = trimL l := by
  have hm : trimEndL (trimEndL l) = trimEndL l := trimEndL_idem l
  have htl : trimL l = (trimEndL l).dropWhile isWS := rfl
  cases hx : (trimEndL l).dropWhile isWS with
  | nil => rw [htl, hx]; rfl
  | cons c xs =>
    have hc : isWS c = false := dropWhile_head_false hx
    have hdecomp : (trimEndL l).takeWhile isWS ++ (c :: xs) = trimEndL l := by
      rw [← hx]; exact List.takeWhile_append_dropWhile isWS _
    have hxs : trimEndL xs = xs := by
      have h1 : trimEndL ((trimEndL l).takeWhile isWS ++ (c :: xs)) = trimEndL l := by
        rw [hdecomp]; exact hm
      rw [trimEndL_append, trimEndL_cons_of_not_ws hc, if_neg (by simp)] at h1
      have h2 : (trimEndL l).takeWhile isWS ++ (c :: trimEndL xs) =
          (trimEndL l).takeWhile isWS ++ (c :: xs) := h1.trans hdecomp.symm
      have h3 := List.append_cancel_left h2
      injection h3 with _ h4
    rw [htl, hx, trimL_cons_of_not_ws hc, hxs]

theorem splitNl_ne_nil (l : List Char) : splitNl l ≠ [] := by
  cases l with
  | nil => simp [splitNl]
  | cons c rest =>
    unfold splitNl
    by_cases h : c = '\n'
    · simp [h]
    · simp only [h, if_false]
      cases splitNl rest <;> simp

theorem splitNl_cons_of_ne {c : Char} (h : ¬ c = '\n') (rest : List Char) :
    splitNl (c :: rest) = (c :: (splitNl rest).headD []) :: (splitNl rest).tail := by
  have h1 := splitNl_ne_nil rest
  cases hs : splitNl rest with
  | nil => exact absurd hs h1
  | cons l ls =>
    unfold splitNl
    simp only [h, if_false, hs]
    simp

theorem splitNl_append (a b : List Char) :
    splitNl (a ++ '\n' :: b) = splitNl a ++ splitNl b := by
  induction a with
  | nil => simp [splitNl]
  | cons c cs ih =>
    by_cases h : c = '\n'
    · simp [splitNl, h, ih]
    · rw [List.cons_append, splitNl_cons_of_ne h, splitNl_cons_of_ne h, ih]
      have h1 := splitNl_ne_nil cs
      cases hs : splitNl cs with
      | nil => exact absurd hs h1
      | cons l ls => simp

theorem splitNl_of_no_newline {l : List Char} (h : '\n' ∉ l) : splitNl l = [l] := by
  induction l with
  | nil => rfl
  | cons c cs ih =>
    simp only [List.mem_cons, not_or] at h
    have hc : ¬ c = '\n' := fun hc => h.1 hc.symm
    rw [splitNl_cons_of_ne hc, ih h.2]
    simp


/-! ### Character-class and prefix lemmas -/

theorem not_ws_of_digit {c : Char} (h : isDigitC c = true) : isWS c = false := by
  simp only [isDigitC, Char.isDigit, decide_eq_true_eq, Bool.and_eq_true] at h
  obtain ⟨h1, h2⟩ := h
  simp only [isWS, Char.isWhitespace, Bool.or_eq_false_iff, decide_eq_false_iff_not]
  refine ⟨⟨⟨?_, ?_⟩, ?_⟩, ?_⟩ <;> rintro rfl <;> revert h1 h2 <;> decide

theorem isPrefixOf_append_self (p x : List Char) : p.isPrefixOf (p ++ x) = true := by
  induction p with
  | nil => simp [List.isPrefixOf]
  | cons a as ih => simp [List.isPrefixOf, ih]

theorem isPrefixOf_cons_ne {a c : Char} (h : ¬ a = c) (as cs : List Char) :
    (a :: as).isPrefixOf (c :: cs) = false := by
  simp only [List.isPrefixOf, Bool.and_eq_false_iff]
  left
  simpa using h

theorem trimEndL_ne_nil_of_trimL {l : List Char} (h : trimL l ≠ []) :
    trimEndL l ≠ [] := by
  intro he
  apply h
  unfold trimL
  rw [he]
  rfl

theorem trimEndL_append_ne {a b : List Char} (h : trimEndL b ≠ []) :
    trimEndL (a ++ b) = a ++ trimEndL b := by
  rw [trimEndL_append, if_neg h]

theorem trimL_cons_append_of_not_ws {c : Char} {x rest : List Char}
    (hc : isWS c = false) (hr : trimEndL rest ≠ []) :
    trimL (c :: (x ++ rest)) = c :: (x ++ trimEndL rest) := by
  have h1 : trimEndL (c :: (x ++ rest)) = c :: (x ++ trimEndL rest) := by
    have h2 := @trimEndL_append_ne (c :: x) rest hr
    simpa using h2
  unfold trimL
  rw [h1, List.dropWhile_cons]
  simp [hc]

theorem trimL_eq_nil_of_trimEndL {l : List Char} (h : trimEndL l = []) :
    trimL l = [] := by
  unfold trimL
  rw [h]
  rfl

/-- The option value pushed for a rendered option line `x) o` is `trimL o`. -/
theorem trimL_dropWhile_trimEndL_space (o : List Char) :
    trimL ((trimEndL (' ' :: o)).dropWhile isWS) = trimL o := by
  by_cases ho : trimEndL o = []
  · rw [trimEndL_ws_cons (by decide), if_pos ho]
    rw [trimL_eq_nil_of_trimEndL ho]
    rfl
  · rw [trimEndL_ws_cons (by decide), if_neg ho, List.dropWhile_cons]
    simp only [show isWS ' ' = true by decide, if_true]
    have : (trimEndL o).dropWhile isWS = trimL o := rfl
    rw [this, trimL_idem]

/-! ### Shape lemmas for the line tests and strippers -/

theorem testNum_shape {nd : List Char} (hnd : nd ≠ [])
    (hdig : ∀ c ∈ nd, isDigitC c = true) {c : Char} (hc : isWS c = true)
    (x : List Char) : testNum (nd ++ '.' :: c :: x) = true := by
  unfold testNum
  have ht : (nd ++ '.' :: c :: x).takeWhile isDigitC = nd := by
    rw [List.takeWhile_append_of_pos hdig, List.takeWhile_cons]
    simp [show isDigitC '.' = false by decide]
  rw [ht, List.drop_left]
  obtain ⟨d, nd2, rfl⟩ := List.exists_cons_of_ne_nil hnd
  simp [hc]

theorem stripNum_shape {nd : List Char} (hnd : nd ≠ [])
    (hdig : ∀ c ∈ nd, isDigitC c = true) (rest : List Char) :
    stripNum (nd ++ '.' :: rest) = rest.dropWhile isWS := by
  unfold stripNum
  have ht : (nd ++ '.' :: rest).takeWhile isDigitC = nd := by
    rw [List.takeWhile_append_of_pos hdig, List.takeWhile_cons]
    simp [show isDigitC '.' = false by decide]
  rw [ht, List.drop_left]
  obtain ⟨d, nd2, rfl⟩ := List.exists_cons_of_ne_nil hnd
  simp

theorem testNum_head_not_digit {c : Char} (h : isDigitC c = false)
    (xs : List Char) : testNum (c :: xs) = false := by
  unfold testNum
  rw [List.takeWhile_cons]
  simp [h]

theorem testOpt_shape {c1 : Char}
    (h : c1 = 'a' ∨ c1 = 'b' ∨ c1 = 'c' ∨ c1 = 'd') (xs : List Char) :
    testOpt (c1 :: ')' :: xs) = true := by
  rcases h with rfl | rfl | rfl | rfl <;> simp [testOpt]

theorem stripOpt_shape {c1 : Char}
    (h : c1 = 'a' ∨ c1 = 'b' ∨ c1 = 'c' ∨ c1 = 'd') (rest : List Char) :
    stripOpt (c1 :: ')' :: rest) = rest.dropWhile isWS := by
  rcases h with rfl | rfl | rfl | rfl <;> simp [stripOpt]

theorem testOpt_snd_ne {c2 : Char} (h : ¬ c2 = ')') (c1 : Char) (xs : List Char) :
    testOpt (c1 :: c2 :: xs) = false := by
  simp [testOpt, h]

theorem testCorrect_shape (xs : List Char) : testCorrect (correctPfx ++ xs) = true := by
  unfold testCorrect
  rw [List.take_left]
  simp

theorem stripCorrect_shape (xs : List Char) :
    stripCorrect (correctPfx ++ xs) = xs.dropWhile isWS := by
  unfold stripCorrect
  rw [isPrefixOf_append_self]
  simp [List.drop_left]

/-! ### Digit-rendering lemmas -/

theorem digitChars_getD_digit (m : Nat) : isDigitC (digitChars.getD m '0') = true := by
  rcases m with _ | _ | _ | _ | _ | _ | _ | _ | _ | _ | m <;>
    simp [digitChars, List.getD, List.get?] <;> decide

theorem natDigitsAux_digits : ∀ (fuel n : Nat), ∀ c ∈ natDigitsAux fuel n, isDigitC c = true := by
  intro fuel
  induction fuel with
  | zero => intro n c hc; simp [natDigitsAux] at hc
  | succ fuel ih =>
    intro n c hc
    unfold natDigitsAux at hc
    by_cases h : n < 10
    · rw [if_pos h] at hc
      simp only [List.mem_singleton] at hc
      subst hc
      exact digitChars_getD_digit n
    · rw [if_neg h] at hc
      rcases List.mem_append.mp hc with h1 | h1
      · exact ih _ c h1
      · simp only [List.mem_singleton] at h1
        subst h1
        exact digitChars_getD_digit (n % 10)

theorem natDigitsAux_ne_nil (fuel n : Nat) : natDigitsAux (fuel + 1) n ≠ [] := by
  unfold natDigitsAux
  by_cases h : n < 10
  · simp [h]
  · simp [h]

theorem natDigits_digits (n : Nat) : ∀ c ∈ natDigits n, isDigitC c = true :=
  natDigitsAux_digits (n + 1) n

theorem natDigits_ne_nil (n : Nat) : natDigits n ≠ [] := natDigitsAux_ne_nil n n

/-! ### Lines of a rendered input -/

theorem splitNl_joinLines : ∀ (L : List (List Char)), L ≠ [] →
    (∀ l ∈ L, '\n' ∉ l) → splitNl (joinLines L) = L
  | [], h, _ => absurd rfl h
  | [l], _, hnl => by
    have : joinLines [l] = l := rfl
    rw [this, splitNl_of_no_newline (hnl l (by simp))]
  | l :: l2 :: ls, _, hnl => by
    have h1 : joinLines (l :: l2 :: ls) = l ++ '\n' :: joinLines (l2 :: ls) := rfl
    rw [h1, splitNl_append, splitNl_of_no_newline (hnl l (by simp)),
      splitNl_joinLines (l2 :: ls) (by simp)
        (fun x hx => hnl x (List.mem_cons_of_mem _ hx))]
    rfl

/-! ### Characterization of the section split -/

theorem isPrefixOf_head {a c : Char} {as cs : List Char}
    (h : (a :: as).isPrefixOf (c :: cs) = true) : c = a := by
  simp only [List.isPrefixOf, Bool.and_eq_true, beq_iff_eq] at h
  exact h.1.symm

theorem not_questionsPfx_of_descPfx {l : List Char}
    (h : descPfx.isPrefixOf l = true) : questionsPfx.isPrefixOf l = false := by
  cases l with
  | nil => simp [descPfx, List.isPrefixOf] at h
  | cons c cs =>
    have hc : c = 'D' := isPrefixOf_head h
    subst hc
    exact isPrefixOf_cons_ne (by decide) _ _

theorem descMarkedLines_cons_pos {l : List Char} (h : descPfx.isPrefixOf l = true)
    (ls : List (List Char)) :
    descMarkedLines (l :: ls) = stripDesc l :: descMarkedLines ls := by
  simp only [descMarkedLines, List.filterMap_cons]
  rw [h]
  simp

theorem descMarkedLines_cons_neg {l : List Char} (h : descPfx.isPrefixOf l = false)
    (ls : List (List Char)) : descMarkedLines (l :: ls) = descMarkedLines ls := by
  simp only [descMarkedLines, List.filterMap_cons]
  rw [h]
  simp

theorem questionTail_cons_skip {l : List Char}
    (h : (!(descPfx.isPrefixOf l) && !(questionsPfx.isPrefixOf l)) = false)
    (ls : List (List Char)) : questionTail (l :: ls) = questionTail ls := by
  simp only [questionTail, List.filter_cons]
  rw [h]
  simp

theorem questionTail_cons_keep {l : List Char}
    (h : (!(descPfx.isPrefixOf l) && !(questionsPfx.isPrefixOf l)) = true)
    (ls : List (List Char)) : questionTail (l :: ls) = l :: questionTail ls := by
  simp only [questionTail, List.filter_cons]
  rw [h]
  simp

theorem questionBlock_cons_continue {l : List Char}
    (h : questionsPfx.isPrefixOf l = false) (ls : List (List Char)) :
    questionBlock (l :: ls) = questionBlock ls := by
  simp only [questionBlock, List.dropWhile_cons]
  rw [h]
  simp

theorem questionBlock_cons_start {l : List Char}
    (h : questionsPfx.isPrefixOf l = true) (ls : List (List Char)) :
    questionBlock (l :: ls) = questionTail ls := by
  simp only [questionBlock, List.dropWhile_cons]
  rw [h]
  simp [questionTail]

theorem splitSections_fst : ∀ (ls : List (List Char)) (b : Bool),
    (splitSections ls b).1 = descMarkedLines ls := by
  intro ls
  induction ls with
  | nil => intro b; rfl
  | cons l ls ih =>
    intro b
    by_cases hd : descPfx.isPrefixOf l = true
    · simp only [splitSections, hd, if_true]
      rw [descMarkedLines_cons_pos hd, ih]
    · rw [Bool.not_eq_true] at hd
      rw [descMarkedLines_cons_neg hd]
      by_cases hq : questionsPfx.isPrefixOf l = true
      · simp only [splitSections, hd, hq, if_true, Bool.false_eq_true, if_false]
        exact ih true
      · rw [Bool.not_eq_true] at hq
        cases b
        · simp only [splitSections, hd, hq, Bool.false_eq_true, if_false]
          exact ih false
        · simp only [splitSections, hd, hq, Bool.false_eq_true, if_false, if_true]
          exact ih true

theorem splitSections_snd_true : ∀ (ls : List (List Char)),
    (splitSections ls true).2 = questionTail ls := by
  intro ls
  induction ls with
  | nil => rfl
  | cons l ls ih =>
    by_cases hd : descPfx.isPrefixOf l = true
    · simp only [splitSections, hd, if_true]
      rw [questionTail_cons_skip (by rw [hd]; rfl), ih]
    · rw [Bool.not_eq_true] at hd
      by_cases hq : questionsPfx.isPrefixOf l = true
      · simp only [splitSections, hd, hq, if_true, Bool.false_eq_true, if_false]
        rw [questionTail_cons_skip (by rw [hq]; simp), ih]
      · rw [Bool.not_eq_true] at hq
        simp only [splitSections, hd, hq, Bool.false_eq_true, if_false, if_true]
        rw [questionTail_cons_keep (by rw [hd, hq]; rfl), ih]

theorem splitSections_snd_false : ∀ (ls : List (List Char)),
    (splitSections ls false).2 = questionBlock ls := by
  intro ls
  induction ls with
  | nil => rfl
  | cons l ls ih =>
    by_cases hd : descPfx.isPrefixOf l = true
    · have hq := not_questionsPfx_of_descPfx hd
      simp only [splitSections, hd, if_true]
      rw [questionBlock_cons_continue hq, ih]
    · rw [Bool.not_eq_true] at hd
      by_cases hq : questionsPfx.isPrefixOf l = true
      · simp only [splitSections, hd, hq, if_true, Bool.false_eq_true, if_false]
        rw [questionBlock_cons_start hq]
        exact splitSections_snd_true ls
      · rw [Bool.not_eq_true] at hq
        simp only [splitSections, hd, hq, Bool.false_eq_true, if_false]
        rw [questionBlock_cons_continue hq, ih]

/-- `parseFlashcardContent`, decomposed: the URL is the leftmost regex match,
the description lines are the (stripped) `"Description:"`-marked lines, and
the questions are grouped from the lines after the first `"Questions:"` line,
excluding the ones routed to other sections. -/
theorem parseFlashcardContent_eq (content : List Char) :
    parseFlashcardContent content =
      ⟨findYoutube content, descMarkedLines (cleanedLines content),
        parseQuestionLines (questionBlock (cleanedLines content)) none⟩ := by
  simp only [parseFlashcardContent, splitSections_fst, splitSections_snd_false]

/-- Component form: the reported video URL. -/
theorem parseFlashcardContent_videoUrl (content : List Char) :
    (parseFlashcardContent content).videoUrl = findYoutube content := by
  rw [parseFlashcardContent_eq]

/-- Component form: the reported description lines. -/
theorem parseFlashcardContent_descLines (content : List Char) :
    (parseFlashcardContent content).descriptionLines =
      descMarkedLines (cleanedLines content) := by
  rw [parseFlashcardContent_eq]

/-! ### Step lemmas for the question-grouping loop -/

theorem dropWhile_isWS_space_cons (x : List Char) :
    (' ' :: x).dropWhile isWS = x.dropWhile isWS := by
  rw [List.dropWhile_cons, if_pos (by decide)]

theorem trimL_singleton_of_not_ws {c : Char} (h : isWS c = false) :
    trimL [c] = [c] := by
  rw [trimL_cons_of_not_ws h]
  rfl

theorem pql_numline (n : Nat) (p : List Char) (hp : trimL p ≠ [])
    (rest : List (List Char)) (cur : Option MCQ) :
    parseQuestionLines (numLine n p :: rest) cur =
      cur.toList ++ parseQuestionLines rest (some ⟨trimL p, [], []⟩) := by
  have hnd := natDigits_ne_nil n
  have hdig := natDigits_digits n
  have hpe : trimEndL p ≠ [] := trimEndL_ne_nil_of_trimL hp
  have hdot : trimEndL ('.' :: ' ' :: p) = '.' :: ' ' :: trimEndL p := by
    rw [trimEndL_cons_of_not_ws (by decide), trimEndL_ws_cons (by decide), if_neg hpe]
  obtain ⟨d, nd2, hout⟩ := List.exists_cons_of_ne_nil hnd
  have hdws : isWS d = false := not_ws_of_digit (hdig d (by rw [hout]; simp))
  have hline : trimL (numLine n p) = natDigits n ++ '.' :: ' ' :: trimEndL p := by
    unfold numLine
    rw [hout, List.cons_append]
    rw [@trimL_cons_append_of_not_ws d nd2 ('.' :: ' ' :: p) hdws (by rw [hdot]; simp)]
    rw [hdot]
    simp
  have htest : testNum (natDigits n ++ '.' :: ' ' :: trimEndL p) = true :=
    testNum_shape hnd hdig (by decide) _
  have hstrip : stripNum (natDigits n ++ '.' :: ' ' :: trimEndL p) =
      (' ' :: trimEndL p).dropWhile isWS := stripNum_shape hnd hdig _
  have hstrip2 : trimL (stripNum (natDigits n ++ '.' :: ' ' :: trimEndL p)) = trimL p := by
    rw [hstrip, dropWhile_isWS_space_cons]
    have : (trimEndL p).dropWhile isWS = trimL p := rfl
    rw [this, trimL_idem]
  simp only [parseQuestionLines, hline, htest, if_true, hstrip2]
  cases cur <;> simp

theorem pql_optline {lab : Char}
    (hlab : lab = 'a' ∨ lab = 'b' ∨ lab = 'c' ∨ lab = 'd') (o : List Char)
    (rest : List (List Char)) (q : MCQ) :
    parseQuestionLines (optLine lab o :: rest) (some q) =
      parseQuestionLines rest (some ⟨q.prompt, q.options ++ [trimL o], q.correct⟩) := by
  have hlws : isWS lab = false := by rcases hlab with rfl | rfl | rfl | rfl <;> decide
  have hline : trimL (optLine lab o) = lab :: ')' :: trimEndL (' ' :: o) := by
    unfold optLine
    rw [trimL_cons_of_not_ws hlws, trimEndL_cons_of_not_ws (by decide)]
  have t1 : testNum (lab :: ')' :: trimEndL (' ' :: o)) = false :=
    testNum_head_not_digit (by rcases hlab with rfl | rfl | rfl | rfl <;> decide) _
  have t2 : testOpt (lab :: ')' :: trimEndL (' ' :: o)) = true := testOpt_shape hlab _
  have t3 : trimL (stripOpt (lab :: ')' :: trimEndL (' ' :: o))) = trimL o := by
    rw [stripOpt_shape hlab, trimL_dropWhile_trimEndL_space]
  simp only [parseQuestionLines, hline, t1, t2, t3, if_true, Bool.false_eq_true, if_false]

theorem pql_corline {letter : Char}
    (hlet : letter = 'a' ∨ letter = 'b' ∨ letter = 'c' ∨ letter = 'd')
    (rest : List (List Char)) (q : MCQ) :
    parseQuestionLines (corLine letter :: rest) (some q) =
      parseQuestionLines rest (some ⟨q.prompt, q.options, [letter]⟩) := by
  have hlws : isWS letter = false := by rcases hlet with rfl | rfl | rfl | rfl <;> decide
  have h1 : trimEndL (' ' :: [letter]) = ' ' :: [letter] := by
    rw [trimEndL_ws_cons (by decide), trimEndL_cons_of_not_ws hlws]
    simp [trimEndL]
  have hline : trimL (corLine letter) = correctPfx ++ ' ' :: [letter] := by
    unfold corLine
    have h3 := @trimL_cons_append_of_not_ws 'C' ['o', 'r', 'r', 'e', 'c', 't', ':']
      (' ' :: [letter]) (by decide) (by rw [h1]; simp)
    rw [h1] at h3
    simpa [correctPfx] using h3
  have t1 : testNum (correctPfx ++ ' ' :: [letter]) = false := by
    have he : correctPfx ++ ' ' :: [letter] =
        'C' :: (['o', 'r', 'r', 'e', 'c', 't', ':'] ++ ' ' :: [letter]) := rfl
    rw [he]
    exact testNum_head_not_digit (by decide) _
  have t2 : testOpt (correctPfx ++ ' ' :: [letter]) = false := by
    have he : correctPfx ++ ' ' :: [letter] =
        'C' :: 'o' :: (['r', 'r', 'e', 'c', 't', ':'] ++ ' ' :: [letter]) := rfl
    rw [he]
    exact testOpt_snd_ne (by decide) _ _
  have t3 : testCorrect (correctPfx ++ ' ' :: [letter]) = true := testCorrect_shape _
  have t4 : trimL (stripCorrect (correctPfx ++ ' ' :: [letter])) = [letter] := by
    rw [stripCorrect_shape, dropWhile_isWS_space_cons, List.dropWhile_cons]
    simp only [hlws, Bool.false_eq_true, if_false]
    exact trimL_singleton_of_not_ws hlws
  simp only [parseQuestionLines, hline, t1, t2, t3, t4, if_true, Bool.false_eq_true, if_false]

/-- The question-grouping loop only looks at trimmed lines. -/
theorem pql_map_trimL : ∀ (ls : List (List Char)) (cur : Option MCQ),
    parseQuestionLines (ls.map trimL) cur = parseQuestionLines ls cur := by
  intro ls
  induction ls with
  | nil => intro cur; rfl
  | cons l ls ih =>
    intro cur
    simp only [List.map_cons, parseQuestionLines, trimL_idem]
    by_cases h1 : testNum (trimL l)
    · simp only [h1, if_true]
      cases cur <;> simp [ih]
    · simp only [h1, Bool.false_eq_true, if_false]
      by_cases h2 : testOpt (trimL l)
      · simp only [h2, if_true]
        cases cur <;> simp [ih]
      · simp only [h2, Bool.false_eq_true, if_false]
        by_cases h3 : testCorrect (trimL l)
        · simp only [h3, if_true]
          cases cur <;> simp [ih]
        · simp only [h3, Bool.false_eq_true, if_false]
          cases cur <;> simp [ih]

/-- Parsing the rendered question blocks yields exactly the expected records
(after flushing the record open on entry). -/
theorem pql_renderQBlocks : ∀ (qs : List WfQuestion) (n : Nat) (cur : Option MCQ),
    (∀ q ∈ qs, WfQ q) →
    parseQuestionLines (renderQBlocks n qs) cur = cur.toList ++ qs.map expectedMCQ := by
  intro qs
  induction qs with
  | nil =>
    intro n cur _
    cases cur <;> simp [renderQBlocks, parseQuestionLines]
  | cons q qs ih =>
    intro n cur hwf
    obtain ⟨hp, _, _, _, _, _, hlet⟩ := hwf q (by simp)
    have hlet' : q.letter = 'a' ∨ q.letter = 'b' ∨ q.letter = 'c' ∨ q.letter = 'd' := by
      simpa using hlet
    simp only [renderQBlocks]
    rw [pql_numline n q.prompt hp, pql_optline (Or.inl rfl),
      pql_optline (Or.inr (Or.inl rfl)), pql_optline (Or.inr (Or.inr (Or.inl rfl))),
      pql_optline (Or.inr (Or.inr (Or.inr rfl))), pql_corline hlet',
      ih (n + 1) _ (fun q' hq' => hwf q' (List.mem_cons_of_mem _ hq'))]
    simp [expectedMCQ]

/-! ### Facts about the rendered well-formed input -/

theorem no_newline_vidLine {u : List Char} (hu : '\n' ∉ u) : '\n' ∉ vidLine u := by
  intro hmem
  rcases List.mem_append.mp hmem with h | h
  · exact absurd h (by decide)
  · exact hu h

theorem no_newline_descLine {d : List Char} (hd : '\n' ∉ d) : '\n' ∉ descLine d := by
  intro hmem
  rcases List.mem_append.mp hmem with h | h
  · exact absurd h (by decide)
  · rcases List.mem_cons.mp h with h1 | h1
    · exact absurd h1 (by decide)
    · exact hd h1

theorem no_newline_numLine (n : Nat) {p : List Char} (hp : '\n' ∉ p) :
    '\n' ∉ numLine n p := by
  intro hmem
  rcases List.mem_append.mp hmem with h | h
  · exact absurd (natDigits_digits n '\n' h) (by decide)
  · rcases List.mem_cons.mp h with h1 | h1
    · exact absurd h1 (by decide)
    · rcases List.mem_cons.mp h1 with h2 | h2
      · exact absurd h2 (by decide)
      · exact hp h2

theorem no_newline_optLine {lab : Char} (hlab : ¬ '\n' = lab) {o : List Char}
    (ho : '\n' ∉ o) : '\n' ∉ optLine lab o := by
  intro hmem
  rcases List.mem_cons.mp hmem with h | h
  · exact hlab h
  · rcases List.mem_cons.mp h with h1 | h1
    · exact absurd h1 (by decide)
    · rcases List.mem_cons.mp h1 with h2 | h2
      · exact absurd h2 (by decide)
      · exact ho h2

theorem no_newline_corLine {letter : Char} (hl : ¬ '\n' = letter) :
    '\n' ∉ corLine letter := by
  intro hmem
  rcases List.mem_append.mp hmem with h | h
  · exact absurd h (by decide)
  · rcases List.mem_cons.mp h with h1 | h1
    · exact absurd h1 (by decide)
    · rcases List.mem_cons.mp h1 with h2 | h2
      · exact hl h2
      · simp at h2

/-- Every rendered question-block line starts with a non-whitespace character
other than `V`, `D` and `Q`, and contains no newline. -/
theorem renderQBlocks_facts : ∀ (qs : List WfQuestion) (n : Nat),
    (∀ q ∈ qs, WfQ q) → ∀ l ∈ renderQBlocks n qs,
      ∃ c t, l = c :: t ∧ isWS c = false ∧
        ¬ 'V' = c ∧ ¬ 'D' = c ∧ ¬ 'Q' = c ∧ '\n' ∉ l := by
  intro qs
  induction qs with
  | nil => intro n _ l hl; simp [renderQBlocks] at hl
  | cons q qs ih =>
    intro n hwf l hl
    obtain ⟨_, hpnl, hA, hB, hC, hD, hlet⟩ := hwf q (by simp)
    have hlet' : q.letter = 'a' ∨ q.letter = 'b' ∨ q.letter = 'c' ∨ q.letter = 'd' := by
      simpa using hlet
    have hletNl : ¬ '\n' = q.letter := by
      rcases hlet' with h | h | h | h <;> rw [h] <;> decide
    simp only [renderQBlocks, List.mem_cons] at hl
    rcases hl with rfl | rfl | rfl | rfl | rfl | rfl | hl
    · obtain ⟨d, nd2, hout⟩ := List.exists_cons_of_ne_nil (natDigits_ne_nil n)
      have hdd : isDigitC d = true := natDigits_digits n d (by rw [hout]; simp)
      refine ⟨d, nd2 ++ '.' :: ' ' :: q.prompt, ?_, not_ws_of_digit hdd, ?_, ?_, ?_,
        no_newline_numLine n hpnl⟩
      · rw [numLine, hout, List.cons_append]
      · intro h; rw [← h] at hdd; exact absurd hdd (by decide)
      · intro h; rw [← h] at hdd; exact absurd hdd (by decide)
      · intro h; rw [← h] at hdd; exact absurd hdd (by decide)
    · exact ⟨'a', _, rfl, by decide, by decide, by decide, by decide,
        no_newline_optLine (by decide) hA⟩
    · exact ⟨'b', _, rfl, by decide, by decide, by decide, by decide,
        no_newline_optLine (by decide) hB⟩
    · exact ⟨'c', _, rfl, by decide, by decide, by decide, by decide,
        no_newline_optLine (by decide) hC⟩
    · exact ⟨'d', _, rfl, by decide, by decide, by decide, by decide,
        no_newline_optLine (by decide) hD⟩
    · exact ⟨'C', _, rfl, by decide, by decide, by decide, by decide,
        no_newline_corLine hletNl⟩
    · exact ih (n + 1) (fun q' hq' => hwf q' (List.mem_cons_of_mem _ hq')) l hl

theorem trimL_head_shape {c : Char} (hc : isWS c = false) (t : List Char) :
    trimL (c :: t) = c :: trimEndL t := trimL_cons_of_not_ws hc t

theorem videoPfx_not_prefix_head {c : Char} (h : ¬ 'V' = c) (cs : List Char) :
    videoPfx.isPrefixOf (c :: cs) = false := isPrefixOf_cons_ne h _ _

theorem descPfx_not_prefix_head {c : Char} (h : ¬ 'D' = c) (cs : List Char) :
    descPfx.isPrefixOf (c :: cs) = false := isPrefixOf_cons_ne h _ _

theorem questionsPfx_not_prefix_head {c : Char} (h : ¬ 'Q' = c) (cs : List Char) :
    questionsPfx.isPrefixOf (c :: cs) = false := isPrefixOf_cons_ne h _ _

theorem descLine_cons (d : List Char) :
    descLine d = 'D' :: (['e', 's', 'c', 'r', 'i', 'p', 't', 'i', 'o', 'n', ':'] ++ ' ' :: d) := rfl

/-- Stage A on a rendered input: the `Video:` line is dropped, every other
line survives trimmed. -/
theorem cleanedLines_render (url : List Char) (descs : List (List Char))
    (qs : List WfQuestion) (hu : '\n' ∉ url) (hdescs : ∀ d ∈ descs, '\n' ∉ d)
    (hq : ∀ q ∈ qs, WfQ q) :
    cleanedLines (renderFlashcard url descs qs) =
      (descs.map fun d => trimL (descLine d)) ++
        questionsPfx :: (renderQBlocks 1 qs).map trimL := by
  have hfacts := renderQBlocks_facts qs 1 hq
  have hnl : ∀ l ∈ vidLine url :: (descs.map descLine ++ questionsPfx :: renderQBlocks 1 qs),
      '\n' ∉ l := by
    intro l hl
    rcases List.mem_cons.mp hl with rfl | hl
    · exact no_newline_vidLine hu
    · rcases List.mem_append.mp hl with hl | hl
      · obtain ⟨d, hd, rfl⟩ := List.mem_map.mp hl
        exact no_newline_descLine (hdescs d hd)
      · rcases List.mem_cons.mp hl with rfl | hl
        · decide
        · exact (hfacts l hl).choose_spec.choose_spec.2.2.2.2.2
  unfold renderFlashcard cleanedLines cleanPipeline
  rw [splitNl_joinLines _ (by simp) hnl]
  rw [List.filter_cons]
  rw [show (videoPfx.isPrefixOf (vidLine url)) = true from isPrefixOf_append_self _ _]
  simp only [Bool.not_true, Bool.false_eq_true, if_false]
  rw [List.filter_append, List.filter_cons]
  have hdkeep : (descs.map descLine).filter (fun l => !(videoPfx.isPrefixOf l)) =
      descs.map descLine := by
    rw [List.filter_eq_self]
    intro l hl
    obtain ⟨d, _, rfl⟩ := List.mem_map.mp hl
    rw [descLine_cons, videoPfx_not_prefix_head (by decide)]
    rfl
  have hqkeep : (renderQBlocks 1 qs).filter (fun l => !(videoPfx.isPrefixOf l)) =
      renderQBlocks 1 qs := by
    rw [List.filter_eq_self]
    intro l hl
    obtain ⟨c, t, rfl, _, hV, _, _, _⟩ := hfacts l hl
    rw [videoPfx_not_prefix_head hV]
    rfl
  rw [hdkeep, hqkeep]
  rw [show (videoPfx.isPrefixOf questionsPfx) = false from by decide]
  simp only [Bool.not_false, if_true]
  rw [List.map_append, List.map_cons, List.map_map]
  rw [show trimL questionsPfx = questionsPfx from by decide]
  rw [List.filter_append, List.filter_cons]
  have hdkeep2 : ((descs.map (trimL ∘ descLine)).filter fun l => !l.isEmpty) =
      descs.map (trimL ∘ descLine) := by
    rw [List.filter_eq_self]
    intro l hl
    obtain ⟨d, _, rfl⟩ := List.mem_map.mp hl
    have : (trimL ∘ descLine) d = 'D' :: trimEndL (['e', 's', 'c', 'r', 'i', 'p', 't', 'i', 'o', 'n', ':'] ++ ' ' :: d) := by
      simp only [Function.comp]
      rw [descLine_cons, trimL_head_shape (by decide)]
    rw [this]
    rfl
  have hqkeep2 : (((renderQBlocks 1 qs).map trimL).filter fun l => !l.isEmpty) =
      (renderQBlocks 1 qs).map trimL := by
    rw [List.filter_eq_self]
    intro l hl
    obtain ⟨l0, hl0, rfl⟩ := List.mem_map.mp hl
    obtain ⟨c, t, rfl, hws, _, _, _, _⟩ := hfacts l0 hl0
    rw [trimL_head_shape hws]
    rfl
  rw [hdkeep2, hqkeep2]
  simp only [show ((questionsPfx.isEmpty : Bool) = false) from rfl, List.map_map]
  rfl

/-- Stage B on a rendered input: the question block is exactly the trimmed
rendered question lines. -/
theorem questionBlock_render (descs : List (List Char)) (qs : List WfQuestion)
    (hq : ∀ q ∈ qs, WfQ q) :
    questionBlock ((descs.map fun d => trimL (descLine d)) ++
        questionsPfx :: (renderQBlocks 1 qs).map trimL) =
      (renderQBlocks 1 qs).map trimL := by
  have hfacts := renderQBlocks_facts qs 1 hq
  unfold questionBlock
  rw [List.dropWhile_append_of_pos ?hdw]
  case hdw =>
    intro l hl
    obtain ⟨d, _, rfl⟩ := List.mem_map.mp hl
    rw [descLine_cons, trimL_head_shape (by decide), questionsPfx_not_prefix_head (by decide)]
    rfl
  rw [List.dropWhile_cons]
  rw [show (questionsPfx.isPrefixOf questionsPfx) = true from by decide]
  simp only [Bool.not_true, Bool.false_eq_true, if_false, List.drop_succ_cons, List.drop_zero]
  rw [List.filter_eq_self]
  intro l hl
  obtain ⟨l0, hl0, rfl⟩ := List.mem_map.mp hl
  obtain ⟨c, t, rfl, hws, _, hD, hQ, _⟩ := hfacts l0 hl0
  rw [trimL_head_shape hws, descPfx_not_prefix_head hD, questionsPfx_not_prefix_head hQ]
  rfl

theorem no_newline_mkYoutubeUrl {secure www : Bool} {vid : List Char}
    (hv : ∀ c ∈ vid, isWordHy c = true) : '\n' ∉ mkYoutubeUrl secure www vid := by
  intro hmem
  unfold mkYoutubeUrl at hmem
  rcases List.mem_append.mp hmem with h | h
  · rcases List.mem_append.mp h with h1 | h1
    · rcases List.mem_append.mp h1 with h2 | h2
      · cases secure <;> revert h2 <;> decide
      · cases www <;> revert h2 <;> decide
    · revert h1; decide
  · exact absurd (hv '\n' h) (by decide)

/-- C1: for a well-formed flashcard input — a `Video:` line holding a YouTube
watch URL, `Description:` lines, and `N` question blocks each made of a
numbered prompt line, option lines `a)`–`d)` and a `Correct: <letter>` line
with a letter in `{a,b,c,d}` — `parseFlashcardContent` returns exactly `N`
question records, each with a non-empty prompt, exactly four options, and a
correct field that is one of the letters `a`–`d`. -/
theorem parse_wellformed_flashcard (secure www : Bool) (vid : List Char)
    (descs : List (List Char)) (qs : List WfQuestion)
    (hvid : ∀ c ∈ vid, isWordHy c = true)
    (hdescs : ∀ d ∈ descs, '\n' ∉ d) (hq : ∀ q ∈ qs, WfQ q) :
    (parseFlashcardContent
        (renderFlashcard (mkYoutubeUrl secure www vid) descs qs)).questions.length =
      qs.length ∧
    ∀ m ∈ (parseFlashcardContent
        (renderFlashcard (mkYoutubeUrl secure www vid) descs qs)).questions,
      m.prompt ≠ [] ∧ m.options.length = 4 ∧
        (m.correct = ['a'] ∨ m.correct = ['b'] ∨ m.correct = ['c'] ∨ m.correct = ['d']) := by
  have hu : '\n' ∉ mkYoutubeUrl secure www vid := no_newline_mkYoutubeUrl hvid
  have hmain : (parseFlashcardContent
      (renderFlashcard (mkYoutubeUrl secure www vid) descs qs)).questions =
      qs.map expectedMCQ := by
    rw [parseFlashcardContent_eq]
    show parseQuestionLines _ none = _
    rw [cleanedLines_render _ _ _ hu hdescs hq, questionBlock_render _ _ hq,
      pql_map_trimL, pql_renderQBlocks qs 1 none hq]
    rfl
  constructor
  · rw [hmain, List.length_map]
  · intro m hm
    rw [hmain] at hm
    obtain ⟨q, hqmem, rfl⟩ := List.mem_map.mp hm
    obtain ⟨hp, _, _, _, _, _, hlet⟩ := hq q hqmem
    have hlet' : q.letter = 'a' ∨ q.letter = 'b' ∨ q.letter = 'c' ∨ q.letter = 'd' := by
      simpa using hlet
    refine ⟨hp, rfl, ?_⟩
    show [q.letter] = ['a'] ∨ [q.letter] = ['b'] ∨ [q.letter] = ['c'] ∨ [q.letter] = ['d']
    rcases hlet' with h | h | h | h <;> rw [h] <;> simp

theorem parse_wellformed_flashcard_witness :
    (∀ c ∈ ("x1".data : List Char), isWordHy c = true) ∧
    (parseFlashcardContent (renderFlashcard (mkYoutubeUrl true true "x1".data)
        ["intro".data]
        [⟨"Why is it so?".data, "one".data, "two".data, "six".data, "ten".data, 'b'⟩])).questions.length = 1 ∧
    ∀ m ∈ (parseFlashcardContent (renderFlashcard (mkYoutubeUrl true true "x1".data)
        ["intro".data]
        [⟨"Why is it so?".data, "one".data, "two".data, "six".data, "ten".data, 'b'⟩])).questions,
      m.prompt ≠ [] ∧ m.options.length = 4 ∧
        (m.correct = ['a'] ∨ m.correct = ['b'] ∨ m.correct = ['c'] ∨ m.correct = ['d']) := by
  refine ⟨by decide, ?_⟩
  exact parse_wellformed_flashcard true true "x1".data ["intro".data]
    [⟨"Why is it so?".data, "one".data, "two".data, "six".data, "ten".data, 'b'⟩]
    (by decide) (by decide) (by decide)

/-! ### Claim C2: the grouping step -/

theorem set_last_eq_dropLast_append {α : Type} :
    ∀ (l : List α) (x : α), l ≠ [] → l.set (l.length - 1) x = l.dropLast ++ [x]
  | [_], _, _ => rfl
  | a :: b :: t, x, _ => by
    have ih := set_last_eq_dropLast_append (b :: t) x (by simp)
    have h1 : (a :: b :: t).length - 1 = (b :: t).length - 1 + 1 := by simp
    rw [h1, List.set_cons_succ, ih]
    rfl

/-- C2: the question loop groups by pattern: a numbered line closes the open
record and opens a new one, option and `Correct:` lines fill the open
record's fields, and any other (continuation) line is appended to the last
open field — the most recent option if one exists, else the prompt. -/
theorem question_grouping_steps (rawLine : List Char) (rest : List (List Char))
    (q : MCQ) :
    (testNum (trimL rawLine) = true →
      parseQuestionLines (rawLine :: rest) (some q) =
        q :: parseQuestionLines rest (some ⟨trimL (stripNum (trimL rawLine)), [], []⟩)) ∧
    (testNum (trimL rawLine) = false → testOpt (trimL rawLine) = true →
      parseQuestionLines (rawLine :: rest) (some q) =
        parseQuestionLines rest
          (some ⟨q.prompt, q.options ++ [trimL (stripOpt (trimL rawLine))], q.correct⟩)) ∧
    (testNum (trimL rawLine) = false → testOpt (trimL rawLine) = false →
      testCorrect (trimL rawLine) = true →
      parseQuestionLines (rawLine :: rest) (some q) =
        parseQuestionLines rest
          (some ⟨q.prompt, q.options, trimL (stripCorrect (trimL rawLine))⟩)) ∧
    (testNum (trimL rawLine) = false → testOpt (trimL rawLine) = false →
      testCorrect (trimL rawLine) = false →
      parseQuestionLines (rawLine :: rest) (some q) =
        parseQuestionLines rest (some (appendToLastOpenField q (trimL rawLine)))) := by
  refine ⟨?_, ?_, ?_, ?_⟩
  · intro h1
    simp only [parseQuestionLines, h1, if_true]
  · intro h1 h2
    simp only [parseQuestionLines, h1, h2, if_true, Bool.false_eq_true, if_false]
  · intro h1 h2 h3
    simp only [parseQuestionLines, h1, h2, h3, if_true, Bool.false_eq_true, if_false]
  · intro h1 h2 h3
    simp only [parseQuestionLines, h1, h2, h3, Bool.false_eq_true, if_false]
    cases hop : q.options with
    | nil => simp [appendToLastOpenField, hop]
    | cons o os =>
      have hne : (o :: os : List (List Char)) ≠ [] := by simp
      simp only [appendToLastOpenField, hop, List.isEmpty_cons, Bool.not_false, if_true,
        Bool.false_eq_true, if_false]
      rw [set_last_eq_dropLast_append (o :: os) _ hne]

theorem question_grouping_steps_witness :
    parseQuestionLines ["with more text".data] (some ⟨"P".data, ["o1".data], []⟩) =
      parseQuestionLines []
        (some (appendToLastOpenField ⟨"P".data, ["o1".data], []⟩
          (trimL "with more text".data))) :=
  (question_grouping_steps "with more text".data [] ⟨"P".data, ["o1".data], []⟩).2.2.2
    (by decide) (by decide) (by decide)

/-! ### Claim C3: the section split -/

/-- C3 counterexample: on an input whose description continues on a bare
second line, the parser's description block is only the `Description:`-marked
line; the bare continuation line (`"more detail"`), although it lies between
`Description:` and `Questions:`, lands in neither block — contradicting the
claim that the remaining text splits into the two blocks. -/
theorem section_split_counterexample :
    specDescBlock ("Description: intro\nmore detail\nQuestions:\n1. Q".data) =
        ["intro".data, "more detail".data] ∧
      (parseFlashcardContent
          ("Description: intro\nmore detail\nQuestions:\n1. Q".data)).descriptionLines =
        ["intro".data] ∧
      specDescBlock ("Description: intro\nmore detail\nQuestions:\n1. Q".data) ≠
        (parseFlashcardContent
          ("Description: intro\nmore detail\nQuestions:\n1. Q".data)).descriptionLines := by
  refine ⟨by decide, by decide, by decide⟩

/-- C3 (amended): for every input, the parser takes the leftmost YouTube-URL
regex match, collects as description block the remainders of the lines that
start with `Description:` (wherever they occur, `Video:` lines removed), and
takes as question block the lines after the first `Questions:` line except
those starting with `Description:` or `Questions:`. -/
theorem flashcard_section_split (content : List Char) :
    (parseFlashcardContent content).videoUrl = findYoutube content ∧
      (parseFlashcardContent content).descriptionLines =
        descMarkedLines (cleanedLines content) ∧
      (parseFlashcardContent content).questions =
        parseQuestionLines (questionBlock (cleanedLines content)) none := by
  rw [parseFlashcardContent_eq]
  exact ⟨rfl, rfl, rfl⟩

/-! ### Claim C4: a missing `Correct:` line leaves the field empty -/

theorem pql_correct_empty : ∀ (ls : List (List Char)) (cur : Option MCQ),
    (∀ l ∈ ls, testCorrect (trimL l) = false) →
    (∀ q, cur = some q → q.correct = []) →
    ∀ m ∈ parseQuestionLines ls cur, m.correct = [] := by
  intro ls
  induction ls with
  | nil =>
    intro cur _ hcur m hm
    cases cur with
    | none => simp [parseQuestionLines] at hm
    | some q =>
      simp only [parseQuestionLines, List.mem_singleton] at hm
      rw [hm]
      exact hcur q rfl
  | cons l ls ih =>
    intro cur hno hcur m hm
    have hl := hno l (by simp)
    have hrest : ∀ x ∈ ls, testCorrect (trimL x) = false :=
      fun x hx => hno x (List.mem_cons_of_mem _ hx)
    simp only [parseQuestionLines] at hm
    by_cases h1 : testNum (trimL l) = true
    · rw [h1] at hm
      simp only [if_true] at hm
      cases cur with
      | some q =>
        rcases List.mem_cons.mp hm with rfl | hm2
        · exact hcur m rfl
        · exact ih _ hrest (fun q' hq' => by cases hq'; rfl) m hm2
      | none => exact ih _ hrest (fun q' hq' => by cases hq'; rfl) m hm
    · rw [Bool.not_eq_true] at h1
      rw [h1] at hm
      simp only [Bool.false_eq_true, if_false] at hm
      by_cases h2 : testOpt (trimL l) = true
      · rw [h2] at hm
        simp only [if_true] at hm
        cases cur with
        | some q =>
          refine ih _ hrest (fun q' hq' => ?_) m hm
          cases hq'
          exact hcur q rfl
        | none => exact ih _ hrest (fun q' hq' => by cases hq') m hm
      · rw [Bool.not_eq_true] at h2
        rw [h2] at hm
        simp only [Bool.false_eq_true, if_false] at hm
        rw [hl] at hm
        simp only [Bool.false_eq_true, if_false] at hm
        cases cur with
        | some q =>
          have hqc : q.correct = [] := hcur q rfl
          have hm2 : m ∈ (if (!q.options.isEmpty) = true then
              parseQuestionLines ls (some ⟨q.prompt,
                q.options.set (q.options.length - 1)
                  (q.options.getLastD [] ++ ' ' :: trimL l), q.correct⟩)
            else parseQuestionLines ls
              (some ⟨q.prompt ++ ' ' :: trimL l, q.options, q.correct⟩)) := hm
          split at hm2
          · exact ih _ hrest (fun q' hq' => by cases hq'; exact hqc) m hm2
          · exact ih _ hrest (fun q' hq' => by cases hq'; exact hqc) m hm2
        | none => exact ih _ hrest (fun q' hq' => by cases hq') m hm

/-- C4: when no line of the question block matches the `Correct:` pattern,
every parsed question record has an empty correct field.  (The parser itself
is a total function — the embedding returns a result on every input string,
mirroring that the source never throws.) -/
theorem parse_missing_correct (content : List Char)
    (h : ∀ l ∈ questionBlock (cleanedLines content), testCorrect (trimL l) = false) :
    ∀ m ∈ (parseFlashcardContent content).questions, m.correct = [] := by
  rw [parseFlashcardContent_eq]
  exact pql_correct_empty _ none h (fun q hq => by cases hq)

theorem parse_missing_correct_witness :
    (∀ l ∈ questionBlock (cleanedLines ("Questions:\n1. Q here\na) x\nb) y".data)),
        testCorrect (trimL l) = false) ∧
      ∀ m ∈ (parseFlashcardContent ("Questions:\n1. Q here\na) x\nb) y".data)).questions,
        m.correct = [] :=
  ⟨by decide, parse_missing_correct _ (by decide)⟩

/-! ### Claim C8: goal status updates are unconstrained -/

/-- C8: `updateGoalStatus` issues the update for any requested status value
with no check of the prior status (no hypothesis constrains either), and on
success the goal with the given id has exactly the requested status in the
resulting state; other goals are untouched. -/
theorem goal_status_update_unconstrained (goals : List Goal)
    (goalId newStatus : List Char) (g : Goal)
    (hg : g ∈ applyGoalStatusUpdate goals goalId newStatus) :
    (g.id = goalId → g.status = newStatus) ∧ (¬ g.id = goalId → g ∈ goals) := by
  obtain ⟨g0, hg0, heq⟩ := List.mem_map.mp hg
  by_cases h : g0.id = goalId
  · rw [if_pos h] at heq
    subst heq
    exact ⟨fun _ => rfl, fun hne => absurd h hne⟩
  · rw [if_neg h] at heq
    subst heq
    exact ⟨fun heq2 => absurd heq2 h, fun _ => hg0⟩

theorem goal_status_update_unconstrained_witness :
    (Goal.mk "g1".data "desc".data "completed".data ∈
        applyGoalStatusUpdate [⟨"g1".data, "desc".data, "not-started".data⟩]
          "g1".data "completed".data) ∧
      ((Goal.mk "g1".data "desc".data "completed".data).id = "g1".data →
        (Goal.mk "g1".data "desc".data "completed".data).status = "completed".data) := by
  refine ⟨by decide, ?_⟩
  exact (goal_status_update_unconstrained
    [⟨"g1".data, "desc".data, "not-started".data⟩] "g1".data "completed".data
    ⟨"g1".data, "desc".data, "completed".data⟩ (by decide)).1

/-! ### Claim C10: non-POST requests -/

/-- C10: a request whose method is not POST is answered 405 with the error
message `Method <m> Not Allowed` and the `Allow` header set to `POST`, with
an empty effect trace: no authentication check, LLM call, or database access
has happened. -/
theorem method_not_allowed (env : GameplanEnv) (h : env.method ≠ postLit) :
    gameplanHandler env =
      ⟨405, some [postLit], .err (methodNotAllowedMsg env.method), []⟩ := by
  unfold gameplanHandler
  rw [if_pos h]

theorem method_not_allowed_witness :
    gameplanHandler
        { method := "GET".data, session := none, bodyUserId := .null,
          bodyTopic := .null, bodySkill := .null, apiKey := none,
          llm := .error [], jsonParse := fun _ => none,
          dbInsertGameplan := none, dbInsertGoals := fun _ => none } =
      ⟨405, some [postLit], .err (methodNotAllowedMsg "GET".data), []⟩ :=
  method_not_allowed _ (by decide)

/-! ### Claim C7: unauthenticated POST requests -/

/-- C7: a POST request without a session is answered 401 Unauthorized, and on
that path the effect trace holds only the authentication check: no LLM call
and no database write is performed. -/
theorem unauthorized_request (env : GameplanEnv) (hm : env.method = postLit)
    (hs : env.session = none) :
    gameplanHandler env = ⟨401, none, .err unauthorizedMsg, [.authCheck]⟩ ∧
      Effect.llmCall ∉ (gameplanHandler env).effects ∧
      ∀ t, Effect.dbWrite t ∉ (gameplanHandler env).effects := by
  have h1 : gameplanHandler env = ⟨401, none, .err unauthorizedMsg, [.authCheck]⟩ := by
    unfold gameplanHandler
    rw [if_neg (by simp [hm]), hs]
  refine ⟨h1, ?_, ?_⟩
  · rw [h1]
    simp
  · intro t
    rw [h1]
    simp

theorem unauthorized_request_witness :
    gameplanHandler
        { method := "POST".data, session := none, bodyUserId := .null,
          bodyTopic := .null, bodySkill := .null, apiKey := none,
          llm := .error [], jsonParse := fun _ => none,
          dbInsertGameplan := none, dbInsertGoals := fun _ => none } =
      ⟨401, none, .err unauthorizedMsg, [.authCheck]⟩ :=
  (unauthorized_request _ (by decide) rfl).1

/-! ### Claim C6: the JSON-extraction fallback -/

/-- C6: when the raw LLM output is not directly parseable, the handler tries
the regex extraction of a `{...}` substring: if no such substring exists it
answers 500 `Malformed gameplan data from OpenAI.`; if the extracted
substring still does not parse (the inner `JSON.parse` throws into the outer
`catch`) it answers 500 with the generic message; only when the fallback
parses does processing continue, exactly as for a directly parseable
response.  Every failure is an error response, never an uncaught throw. -/
theorem llm_json_fallback (env : GameplanEnv) (raw : List Char)
    (hm : env.method = postLit) (u : List Char) (hs : env.session = some u)
    (hb1 : env.bodyUserId.isStr = true) (hb2 : env.bodyTopic.isStr = true)
    (hb3 : env.bodySkill.isStr = true) (k : List Char) (hk : env.apiKey = some k)
    (hllm : env.llm = .ok (some raw)) (hfail : env.jsonParse raw = none) :
    (extractJsonObject raw = none →
      gameplanHandler env = ⟨500, none, .err malformedDataMsg, [.authCheck, .llmCall]⟩) ∧
    (∀ sub, extractJsonObject raw = some sub → env.jsonParse sub = none →
      gameplanHandler env = ⟨500, none, .err genericFailMsg, [.authCheck, .llmCall]⟩) ∧
    (∀ sub parsed, extractJsonObject raw = some sub → env.jsonParse sub = some parsed →
      gameplanHandler env = handleParsedGameplan env parsed [.authCheck, .llmCall]) := by
  have hbody : (!(env.bodyUserId.isStr && env.bodyTopic.isStr && env.bodySkill.isStr)) = false := by
    rw [hb1, hb2, hb3]
    rfl
  have hred : gameplanHandler env =
      jsonStage env raw [.authCheck, .llmCall] (env.jsonParse raw) := by
    unfold gameplanHandler
    rw [if_neg (by simp [hm]), hs, hbody]
    simp only [Bool.false_eq_true, if_false]
    rw [hk]
    show llmStage env env.llm = _
    rw [hllm]
    simp only [llmStage, Option.getD_some]
  refine ⟨?_, ?_, ?_⟩
  · intro hx
    rw [hred, hfail]
    simp only [jsonStage]
    rw [hx]
    rfl
  · intro sub hx hsub
    rw [hred, hfail]
    simp only [jsonStage]
    rw [hx]
    show parsedStage env [.authCheck, .llmCall] (env.jsonParse sub) = _
    rw [hsub]
    rfl
  · intro sub parsed hx hsub
    rw [hred, hfail]
    simp only [jsonStage]
    rw [hx]
    show parsedStage env [.authCheck, .llmCall] (env.jsonParse sub) = _
    rw [hsub]
    rfl

theorem llm_json_fallback_witness :
    gameplanHandler
        { method := "POST".data, session := some "u1".data,
          bodyUserId := .str "u1".data, bodyTopic := .str "t".data,
          bodySkill := .str "s".data, apiKey := some "k".data,
          llm := .ok (some "no json here".data), jsonParse := fun _ => none,
          dbInsertGameplan := none, dbInsertGoals := fun _ => none } =
      ⟨500, none, .err malformedDataMsg, [.authCheck, .llmCall]⟩ :=
  (llm_json_fallback _ "no json here".data rfl "u1".data rfl (by decide) (by decide)
    (by decide) "k".data rfl rfl rfl).1 (by decide)

/-! ### Claim C5: shape of the gameplan response -/

theorem persistAndRespond_shape (env : GameplanEnv) (gs norm : List (List Char))
    (effs : List Effect) :
    ∃ goalsRet effs2, persistAndRespond env gs norm effs =
      ⟨200, none, .ok ⟨env.dbInsertGameplan, goalsRet, norm⟩, effs2⟩ := by
  unfold persistAndRespond
  cases hgp : env.dbInsertGameplan with
  | none => exact ⟨[], _, rfl⟩
  | some gid =>
    by_cases hempty : gid.isEmpty = true
    · simp only [hempty, if_true]
      exact ⟨[], _, rfl⟩
    · rw [Bool.not_eq_true] at hempty
      simp only [hempty, Bool.false_eq_true, if_false]
      exact ⟨_, _, rfl⟩

theorem flashcardsStage_shape (env : GameplanEnv) (gs : List (List Char))
    (effs : List Effect) : ∀ fv : Option Jv,
    (∃ msg, flashcardsStage env gs effs fv = ⟨500, none, .err msg, effs⟩) ∨
    (∃ goalsRet fcs effs2, flashcardsStage env gs effs fv =
      ⟨200, none, .ok ⟨env.dbInsertGameplan, goalsRet, fcs⟩, effs2⟩) := by
  intro fv
  match fv with
  | none => exact Or.inl ⟨malformedFcsMsg, rfl⟩
  | some .null => exact Or.inl ⟨malformedFcsMsg, rfl⟩
  | some (.boolean b) => exact Or.inl ⟨malformedFcsMsg, rfl⟩
  | some (.num n) => exact Or.inl ⟨malformedFcsMsg, rfl⟩
  | some (.str s) => exact Or.inl ⟨malformedFcsMsg, rfl⟩
  | some (.obj fs) => exact Or.inl ⟨malformedFcsMsg, rfl⟩
  | some (.arr fcs) =>
    have h0 : flashcardsStage env gs effs (some (.arr fcs)) =
        normStage env gs effs (normalizeFlashcards fcs) := rfl
    rw [h0]
    cases hnorm : normalizeFlashcards fcs with
    | error e => exact Or.inl ⟨genericFailMsg, rfl⟩
    | ok normalized =>
      right
      obtain ⟨goalsRet, effs2, hpr⟩ := persistAndRespond_shape env gs normalized effs
      exact ⟨goalsRet, normalized, effs2, hpr⟩

theorem handleParsedGameplan_shape (env : GameplanEnv) (parsed : Jv)
    (effs : List Effect) :
    (∃ msg, handleParsedGameplan env parsed effs = ⟨500, none, .err msg, effs⟩) ∨
    (∃ goalsRet fcs effs2, handleParsedGameplan env parsed effs =
      ⟨200, none, .ok ⟨env.dbInsertGameplan, goalsRet, fcs⟩, effs2⟩) := by
  unfold handleParsedGameplan
  cases hacc : parsed.accessField "goals".data with
  | error e => exact Or.inl ⟨genericFailMsg, rfl⟩
  | ok gv =>
    by_cases hval : isStringArray gv = true
    · have h0 : goalsCheckStage env parsed effs (.ok gv) =
          afterGoalsCheck env gv effs (parsed.accessField "flashcards".data) := by
        simp [goalsCheckStage, hval]
      rw [h0]
      cases hacc2 : parsed.accessField "flashcards".data with
      | error e => exact Or.inl ⟨genericFailMsg, rfl⟩
      | ok fv =>
        have h1 : afterGoalsCheck env gv effs (.ok fv) =
            flashcardsStage env (goalsArrayStrings gv) effs fv := rfl
        rw [h1]
        exact flashcardsStage_shape env (goalsArrayStrings gv) effs fv
    · rw [Bool.not_eq_true] at hval
      have h0 : goalsCheckStage env parsed effs (.ok gv) =
          ⟨500, none, .err malformedGoalsMsg, effs⟩ := by
        simp [goalsCheckStage, hval]
      rw [h0]
      exact Or.inl ⟨malformedGoalsMsg, rfl⟩

/-- C5 counterexample: with an authenticated POST, string body fields, a
parseable LLM payload, but a failing `gameplans` insert, the handler answers
200 — not an error response — and the response carries no gameplan id
(`gameplanId` is `undefined` in the source, dropped from the JSON), refuting
the claim that a non-error response contains a gameplan id. -/
theorem gameplan_response_counterexample :
    gameplanHandler
        { method := "POST".data, session := some "u1".data,
          bodyUserId := .str "u1".data, bodyTopic := .str "t".data,
          bodySkill := .str "s".data, apiKey := some "k".data,
          llm := .ok (some "{}".data),
          jsonParse := fun s =>
            if s = "{}".data then
              some (.obj [("goals".data, .arr []), ("flashcards".data, .arr [])])
            else none,
          dbInsertGameplan := none, dbInsertGoals := fun _ => none } =
      ⟨200, none, .ok ⟨none, [], []⟩,
        [.authCheck, .llmCall, .dbWrite "gameplans".data]⟩ := by
  rfl

/-- C5 (amended): for every authenticated POST request with string `userId`,
`topic` and `skill`, the handler returns either an error response or a 200
response carrying the gameplan id exactly when the `gameplans` insert
succeeded (and no id otherwise), the list of inserted goals, and the list of
raw flashcard strings. -/
theorem llmStage_shape (env : GameplanEnv) :
    ∀ x : Except (List Char) (Option (List Char)),
    (∃ st msg effs, llmStage env x = ⟨st, none, .err msg, effs⟩) ∨
    (∃ goalsRet fcs effs, llmStage env x =
      ⟨200, none, .ok ⟨env.dbInsertGameplan, goalsRet, fcs⟩, effs⟩) := by
  intro x
  cases x with
  | error e => exact Or.inl ⟨500, genericFailMsg, [.authCheck, .llmCall], rfl⟩
  | ok contentOpt =>
    simp only [llmStage]
    cases hp : env.jsonParse (contentOpt.getD []) with
    | some parsed =>
      have h0 : jsonStage env (contentOpt.getD []) [.authCheck, .llmCall] (some parsed) =
          handleParsedGameplan env parsed [.authCheck, .llmCall] := rfl
      rw [h0]
      rcases handleParsedGameplan_shape env parsed [.authCheck, .llmCall] with
        ⟨msg, hmsg⟩ | ⟨goalsRet, fcs, effs2, hok⟩
      · exact Or.inl ⟨500, msg, _, hmsg⟩
      · exact Or.inr ⟨goalsRet, fcs, effs2, hok⟩
    | none =>
      simp only [jsonStage]
      cases hx : extractJsonObject (contentOpt.getD []) with
      | none => exact Or.inl ⟨500, malformedDataMsg, [.authCheck, .llmCall], rfl⟩
      | some sub =>
        have h0 : extractStage env [.authCheck, .llmCall] (some sub) =
            parsedStage env [.authCheck, .llmCall] (env.jsonParse sub) := rfl
        rw [h0]
        cases hp2 : env.jsonParse sub with
        | none => exact Or.inl ⟨500, genericFailMsg, [.authCheck, .llmCall], rfl⟩
        | some parsed =>
          have h1 : parsedStage env [.authCheck, .llmCall] (some parsed) =
              handleParsedGameplan env parsed [.authCheck, .llmCall] := rfl
          rw [h1]
          rcases handleParsedGameplan_shape env parsed [.authCheck, .llmCall] with
            ⟨msg, hmsg⟩ | ⟨goalsRet, fcs, effs2, hok⟩
          · exact Or.inl ⟨500, msg, _, hmsg⟩
          · exact Or.inr ⟨goalsRet, fcs, effs2, hok⟩

/-- C5 (amended): for every authenticated POST request with string `userId`,
`topic` and `skill`, the handler returns either an error response or a 200
response carrying the gameplan id exactly when the `gameplans` insert
succeeded (and no id otherwise), the list of inserted goals, and the list of
raw flashcard strings. -/
theorem gameplan_response_shape (env : GameplanEnv) (hm : env.method = postLit)
    (u : List Char) (hs : env.session = some u)
    (hb1 : env.bodyUserId.isStr = true) (hb2 : env.bodyTopic.isStr = true)
    (hb3 : env.bodySkill.isStr = true) :
    (∃ st msg effs, gameplanHandler env = ⟨st, none, .err msg, effs⟩) ∨
    (∃ goalsRet fcs effs, gameplanHandler env =
      ⟨200, none, .ok ⟨env.dbInsertGameplan, goalsRet, fcs⟩, effs⟩) := by
  have hbody : (!(env.bodyUserId.isStr && env.bodyTopic.isStr && env.bodySkill.isStr)) = false := by
    rw [hb1, hb2, hb3]
    rfl
  unfold gameplanHandler
  rw [if_neg (by simp [hm]), hs, hbody]
  simp only [Bool.false_eq_true, if_false]
  cases hk : env.apiKey with
  | none => exact Or.inl ⟨500, missingKeyMsg, [.authCheck], rfl⟩
  | some k => exact llmStage_shape env env.llm

theorem gameplan_response_shape_witness :
    (∃ st msg effs, gameplanHandler
        { method := "POST".data, session := some "u1".data,
          bodyUserId := .str "u1".data, bodyTopic := .str "t".data,
          bodySkill := .str "s".data, apiKey := none,
          llm := .error [], jsonParse := fun _ => none,
          dbInsertGameplan := none, dbInsertGoals := fun _ => none } =
        ⟨st, none, .err msg, effs⟩) ∨
    (∃ goalsRet fcs effs, gameplanHandler
        { method := "POST".data, session := some "u1".data,
          bodyUserId := .str "u1".data, bodyTopic := .str "t".data,
          bodySkill := .str "s".data, apiKey := none,
          llm := .error [], jsonParse := fun _ => none,
          dbInsertGameplan := none, dbInsertGoals := fun _ => none } =
        ⟨200, none, .ok ⟨none, goalsRet, fcs⟩, effs⟩) :=
  gameplan_response_shape _ rfl "u1".data rfl (by decide) (by decide) (by decide)

/-! ### Locating the video URL (claim C9) -/

theorem mem_of_mem_trimEndL {c : Char} {l : List Char} (h : c ∈ trimEndL l) :
    c ∈ l := by
  unfold trimEndL at h
  rw [List.mem_reverse] at h
  have h2 := List.takeWhile_append_dropWhile isWS l.reverse
  have h3 : c ∈ l.reverse := by
    rw [← h2]
    exact List.mem_append.mpr (Or.inr h)
  rwa [List.mem_reverse] at h3

theorem no_newline_trimEndL {l : List Char} (h : '\n' ∉ l) :
    '\n' ∉ trimEndL l := fun hc => h (mem_of_mem_trimEndL hc)

theorem tryMatchAt_head_fail {c : Char} (h : ¬ c.toLower = 'h') (xs : List Char) :
    tryMatchAt (c :: xs) = none := by
  unfold tryMatchAt
  have h1 : matchCI httpLit (c :: xs) = none := by
    show (if c.toLower = 'h'.toLower then matchCI ['t', 't', 'p'] xs else none) = none
    rw [if_neg]
    intro hc
    exact h (by rw [hc]; decide)
  rw [h1]

theorem findYoutube_cons_fail {c : Char} {xs : List Char}
    (h : tryMatchAt (c :: xs) = none) : findYoutube (c :: xs) = findYoutube xs := by
  simp [findYoutube, h]

theorem findYoutube_videoPfx (X : List Char) :
    findYoutube (videoPfx ++ X) = findYoutube X := by
  show findYoutube ('V' :: ('i' :: 'd' :: 'e' :: 'o' :: ':' :: ' ' :: X)) = findYoutube X
  rw [findYoutube_cons_fail (tryMatchAt_head_fail (by decide) _)]
  rw [findYoutube_cons_fail (tryMatchAt_head_fail (by decide) _)]
  rw [findYoutube_cons_fail (tryMatchAt_head_fail (by decide) _)]
  rw [findYoutube_cons_fail (tryMatchAt_head_fail (by decide) _)]
  rw [findYoutube_cons_fail (tryMatchAt_head_fail (by decide) _)]
  rw [findYoutube_cons_fail (tryMatchAt_head_fail (by decide) _)]
  rw [findYoutube_cons_fail (tryMatchAt_head_fail (by decide) _)]

theorem takeWhile_wordHy {vid : List Char} (h : ∀ c ∈ vid, isWordHy c = true)
    (t2 : List Char) : (vid ++ '\n' :: t2).takeWhile isWordHy = vid := by
  rw [List.takeWhile_append_of_pos h, List.takeWhile_cons]
  simp [show isWordHy '\n' = false from by decide]

theorem ytTail_eval (s : List Char) {vid : List Char} (h1 : vid ≠ [])
    (h2 : ∀ c ∈ vid, isWordHy c = true) (t2 : List Char) :
    ytTail s ("youtube.com/watch?v=".data ++ (vid ++ '\n' :: t2)) =
      some (s.length - (vid ++ '\n' :: t2).length + vid.length) := by
  show (if ((vid ++ '\n' :: t2).takeWhile isWordHy).isEmpty = true then none
    else some (s.length - (vid ++ '\n' :: t2).length +
      ((vid ++ '\n' :: t2).takeWhile isWordHy).length)) = _
  rw [takeWhile_wordHy h2 t2]
  obtain ⟨d, vid2, rfl⟩ := List.exists_cons_of_ne_nil h1
  rfl

theorem afterScheme_www (s : List Char) {vid : List Char} (h1 : vid ≠ [])
    (h2 : ∀ c ∈ vid, isWordHy c = true) (t2 : List Char) :
    afterScheme s ("www.".data ++ ("youtube.com/watch?v=".data ++ (vid ++ '\n' :: t2))) =
      some (s.length - (vid ++ '\n' :: t2).length + vid.length) := by
  show (ytTail s ("youtube.com/watch?v=".data ++ (vid ++ '\n' :: t2))).orElse
      (fun _ => ytTail s
        ("www.".data ++ ("youtube.com/watch?v=".data ++ (vid ++ '\n' :: t2)))) = _
  rw [ytTail_eval s h1 h2 t2]
  rfl

theorem afterScheme_nowww (s : List Char) {vid : List Char} (h1 : vid ≠ [])
    (h2 : ∀ c ∈ vid, isWordHy c = true) (t2 : List Char) :
    afterScheme s ("youtube.com/watch?v=".data ++ (vid ++ '\n' :: t2)) =
      some (s.length - (vid ++ '\n' :: t2).length + vid.length) := by
  show ytTail s ("youtube.com/watch?v=".data ++ (vid ++ '\n' :: t2)) = _
  exact ytTail_eval s h1 h2 t2

theorem tryMatchAt_url (secure www : Bool) {vid : List Char} (h1 : vid ≠ [])
    (h2 : ∀ c ∈ vid, isWordHy c = true) (t2 : List Char) :
    tryMatchAt (mkYoutubeUrl secure www vid ++ '\n' :: t2) =
      some (mkYoutubeUrl secure www vid).length := by
  cases secure <;> cases www
  · show afterScheme (mkYoutubeUrl false false vid ++ '\n' :: t2)
      ("youtube.com/watch?v=".data ++ (vid ++ '\n' :: t2)) = _
    rw [afterScheme_nowww _ h1 h2 t2]
    congr 1
    simp only [mkYoutubeUrl, List.length_append]
    omega
  · show afterScheme (mkYoutubeUrl false true vid ++ '\n' :: t2)
      ("www.".data ++ ("youtube.com/watch?v=".data ++ (vid ++ '\n' :: t2))) = _
    rw [afterScheme_www _ h1 h2 t2]
    congr 1
    simp only [mkYoutubeUrl, List.length_append]
    omega
  · show afterScheme (mkYoutubeUrl true false vid ++ '\n' :: t2)
      ("youtube.com/watch?v=".data ++ (vid ++ '\n' :: t2)) = _
    rw [afterScheme_nowww _ h1 h2 t2]
    congr 1
    simp only [mkYoutubeUrl, List.length_append]
    omega
  · show afterScheme (mkYoutubeUrl true true vid ++ '\n' :: t2)
      ("www.".data ++ ("youtube.com/watch?v=".data ++ (vid ++ '\n' :: t2))) = _
    rw [afterScheme_www _ h1 h2 t2]
    congr 1
    simp only [mkYoutubeUrl, List.length_append]
    omega

theorem findYoutube_eq_of_tryMatchAt {l : List Char} {n : Nat}
    (h : tryMatchAt l = some n) (hne : l ≠ []) :
    findYoutube l = some (l.take n) := by
  cases l with
  | nil => exact absurd rfl hne
  | cons c cs => simp [findYoutube, h]

theorem findYoutube_video_line (secure www : Bool) {vid : List Char}
    (h1 : vid ≠ []) (h2 : ∀ c ∈ vid, isWordHy c = true) (t2 : List Char) :
    findYoutube (videoPfx ++ (mkYoutubeUrl secure www vid ++ '\n' :: t2)) =
      some (mkYoutubeUrl secure www vid) := by
  rw [findYoutube_videoPfx]
  rw [findYoutube_eq_of_tryMatchAt (tryMatchAt_url secure www h1 h2 t2) (by
    cases secure <;> cases www <;> simp [mkYoutubeUrl])]
  rw [List.take_left']
  rfl

/-! ### Description lines of a normalized flashcard (claim C9) -/

theorem descMarkedLines_append (a b : List (List Char)) :
    descMarkedLines (a ++ b) = descMarkedLines a ++ descMarkedLines b := by
  simp [descMarkedLines, List.filterMap_append]

theorem descMarkedLines_nil_of {ls : List (List Char)}
    (h : ∀ l ∈ ls, descPfx.isPrefixOf l = false) : descMarkedLines ls = [] := by
  induction ls with
  | nil => rfl
  | cons l ls ih =>
    rw [descMarkedLines_cons_neg (h l (by simp))]
    exact ih fun x hx => h x (List.mem_cons_of_mem _ hx)

theorem trimEndL_ends_questionsPfx (x : List Char) :
    trimEndL (x ++ questionsPfx) = x ++ questionsPfx := by
  have h : x ++ questionsPfx =
      (x ++ ['Q', 'u', 'e', 's', 't', 'i', 'o', 'n', 's']) ++ [':'] := by
    simp [questionsPfx]
  rw [h, trimEndL_append_singleton_of_not_ws (by decide)]

/-- Every line of the (right-trimmed) question-lines block of the normalizer,
when its entries are single-line strings none of which trim-starts with
`Description:`, also does not trim-start with `Description:`. -/
theorem questionLinesBlock_lines : ∀ (qlines : List Jv),
    (∀ x ∈ qlines, ∃ s, x = Jv.str s ∧ '\n' ∉ s ∧
      descPfx.isPrefixOf (trimL s) = false) →
    ∀ l ∈ splitNl (trimEndL (questionLinesBlock qlines)),
      descPfx.isPrefixOf (trimL l) = false := by
  intro qlines
  induction qlines with
  | nil =>
    intro _ l hl
    simp only [questionLinesBlock, trimEndL_nil, splitNl, List.mem_singleton] at hl
    subst hl
    decide
  | cons x rest ih =>
    intro hq l hl
    obtain ⟨s, rfl, hsnl, hsd⟩ := hq x (by simp)
    have hrest : ∀ y ∈ rest, ∃ s, y = Jv.str s ∧ '\n' ∉ s ∧
        descPfx.isPrefixOf (trimL s) = false :=
      fun y hy => hq y (List.mem_cons_of_mem _ hy)
    have hblock : questionLinesBlock (Jv.str s :: rest) =
        s ++ '\n' :: questionLinesBlock rest := rfl
    rw [hblock] at hl
    by_cases hre : trimEndL ('\n' :: questionLinesBlock rest) = []
    · rw [trimEndL_append, if_pos hre] at hl
      rw [splitNl_of_no_newline (no_newline_trimEndL hsnl)] at hl
      simp only [List.mem_singleton] at hl
      subst hl
      rw [trimL_trimEndL]
      exact hsd
    · rw [trimEndL_append, if_neg hre] at hl
      have hb2 : trimEndL (questionLinesBlock rest) ≠ [] := by
        intro hc
        exact hre (by rw [trimEndL_ws_cons (by decide), if_pos hc])
      rw [trimEndL_ws_cons (by decide), if_neg hb2] at hl
      rw [splitNl_append, splitNl_of_no_newline hsnl] at hl
      rcases List.mem_append.mp hl with hl1 | hl1
      · simp only [List.mem_singleton] at hl1
        subst hl1
        exact hsd
      · exact ih hrest l hl1

theorem trimL_descLine_value {desc : List Char} (hdne : trimL desc ≠ []) :
    trimL (descPfx ++ ' ' :: desc) =
      'D' :: (['e', 's', 'c', 'r', 'i', 'p', 't', 'i', 'o', 'n', ':'] ++
        ' ' :: trimEndL desc) := by
  have hde : trimEndL desc ≠ [] := trimEndL_ne_nil_of_trimL hdne
  have hsp : trimEndL (' ' :: desc) = ' ' :: trimEndL desc := by
    rw [trimEndL_ws_cons (by decide), if_neg hde]
  have h0 := @trimL_cons_append_of_not_ws 'D'
    ['e', 's', 'c', 'r', 'i', 'p', 't', 'i', 'o', 'n', ':'] (' ' :: desc)
    (by decide) (by rw [hsp]; simp)
  rw [hsp] at h0
  exact h0

theorem stripDesc_descLine {desc : List Char} (hdne : trimL desc ≠ []) :
    stripDesc (trimL (descPfx ++ ' ' :: desc)) = trimL desc := by
  have hde : trimEndL desc ≠ [] := trimEndL_ne_nil_of_trimL hdne
  rw [trimL_descLine_value hdne]
  show trimL (' ' :: trimEndL desc) = trimL desc
  unfold trimL
  rw [trimEndL_ws_cons (by decide), if_neg (by rw [trimEndL_idem]; exact hde),
    trimEndL_idem, List.dropWhile_cons]
  simp only [show isWS ' ' = true from by decide, if_true]

theorem trimEndL_eq_nil_of_trimL {l : List Char} (h : trimL l = []) :
    trimEndL l = [] := by
  have hall : ∀ x ∈ trimEndL l, isWS x = true := by
    intro x hx
    by_contra hws
    have hx' : x ∈ (trimEndL l).dropWhile isWS := by
      have := List.takeWhile_append_dropWhile isWS (trimEndL l)
      rcases List.mem_append.mp (by rw [this]; exact hx) with hmem | hmem
      · exact absurd (List.mem_takeWhile_imp hmem) hws
      · exact hmem
    rw [show (trimEndL l).dropWhile isWS = trimL l from rfl, h] at hx'
    exact absurd hx' (List.not_mem_nil x)
  cases he : trimEndL l with
  | nil => rfl
  | cons c cs =>
    have hc : isWS c = false := by
      have h1 : (l.reverse.dropWhile isWS) = (c :: cs).reverse := by
        have : trimEndL l = (l.reverse.dropWhile isWS).reverse := rfl
        rw [he] at this
        rw [show l.reverse.dropWhile isWS = ((l.reverse.dropWhile isWS).reverse).reverse
          from (List.reverse_reverse _).symm, ← this]
      rcases List.exists_cons_of_ne_nil
          (show l.reverse.dropWhile isWS ≠ [] from by
            rw [h1]; simp) with ⟨d, ds, hd⟩
      have hdws : isWS d = false := dropWhile_head_false hd
      have hdm : d ∈ trimEndL l := by
        show d ∈ (l.reverse.dropWhile isWS).reverse
        rw [hd]; simp
      rw [he] at hdm
      rcases List.mem_cons.mp hdm with rfl | hdm
      · exact hdws
      · exact absurd (hall d (by rw [he]; exact List.mem_cons_of_mem _ hdm)) (by rw [hdws]; decide)
    exact absurd (hall c (by rw [he]; simp)) (by rw [hc]; decide)

theorem trimL_descLine_blank {desc : List Char} (h : trimL desc = []) :
    trimL (descPfx ++ ' ' :: desc) = descPfx := by
  have hde : trimEndL desc = [] := trimEndL_eq_nil_of_trimL h
  have hsp : trimEndL (' ' :: desc) = [] := by
    rw [trimEndL_ws_cons (by decide), if_pos hde]
  unfold trimL
  rw [trimEndL_append, if_pos hsp]
  decide

/-- The trimmed `Description:` line of a normalized flashcard, in both the
blank and the non-blank case: it is never empty, always starts with
`Description:`, and stripping the marker recovers the trimmed description. -/
theorem trimL_descLine_cases (desc : List Char) :
    ∃ dl, trimL (descPfx ++ ' ' :: desc) = dl ∧
      dl.isEmpty = false ∧ descPfx.isPrefixOf dl = true ∧
      stripDesc dl = trimL desc := by
  by_cases h : trimL desc = []
  · refine ⟨descPfx, trimL_descLine_blank h, by decide, by decide, ?_⟩
    rw [h]
    decide
  · refine ⟨_, trimL_descLine_value h, rfl, ?_, ?_⟩
    · show descPfx.isPrefixOf ('D' ::
        (['e', 's', 'c', 'r', 'i', 'p', 't', 'i', 'o', 'n', ':'] ++
          ' ' :: trimEndL desc)) = true
      exact isPrefixOf_append_self descPfx (' ' :: trimEndL desc)
    · have h0 := stripDesc_descLine h
      rw [trimL_descLine_value h] at h0
      exact h0

/-- The description block of the cleaned lines of a normalized flashcard:
the `Video:` line is dropped, the single `Description:` line contributes its
trimmed remainder, and neither `Questions:` nor any question line adds to
the description block. -/
theorem descMarked_cleanPipeline (u desc : List Char) (QL : List (List Char))
    (hQL : ∀ l ∈ QL, descPfx.isPrefixOf (trimL l) = false) :
    descMarkedLines (cleanPipeline
      ([videoPfx ++ u, descPfx ++ ' ' :: desc, questionsPfx] ++ QL)) = [trimL desc] := by
  obtain ⟨dl, hdl, hdlne, hdlpfx, hdlstrip⟩ := trimL_descLine_cases desc
  unfold cleanPipeline
  rw [List.filter_append, List.filter_cons, List.filter_cons, List.filter_cons]
  rw [show (videoPfx.isPrefixOf (videoPfx ++ u)) = true from isPrefixOf_append_self _ _]
  rw [show (videoPfx.isPrefixOf (descPfx ++ ' ' :: desc)) = false from
    videoPfx_not_prefix_head (by decide) _]
  rw [show (videoPfx.isPrefixOf questionsPfx) = false from by decide]
  simp only [Bool.not_true, Bool.not_false, Bool.false_eq_true, if_false, if_true,
    List.filter_nil, List.map_nil, List.nil_append, List.cons_append,
    List.map_append, List.map_cons, List.filter_append, List.filter_cons]
  rw [hdl, hdlne]
  rw [show trimL questionsPfx = questionsPfx from by decide]
  simp only [Bool.not_false, if_true,
    show ((questionsPfx.isEmpty : Bool) = false) from rfl]
  rw [descMarkedLines_cons_pos hdlpfx]
  rw [descMarkedLines_cons_neg (by decide)]
  rw [descMarkedLines_nil_of (by
    intro x hx
    rcases List.mem_filter.mp hx with ⟨hx1, _⟩
    obtain ⟨l0, hl0, rfl⟩ := List.mem_map.mp hx1
    rcases List.mem_filter.mp hl0 with ⟨hl1, _⟩
    exact hQL l0 hl1)]
  rw [hdlstrip]

theorem dropWhile_videoPfx (Z : List Char) :
    (videoPfx ++ Z).dropWhile isWS = videoPfx ++ Z := by
  show (('V' :: (['i', 'd', 'e', 'o', ':', ' '] ++ Z)).dropWhile isWS) = _
  rw [List.dropWhile_cons, if_neg (by decide)]
  rfl

theorem normalizeFlashcard_obj (fields : List (List Char × Jv))
    (u desc : List Char) (qlines : List Jv)
    (hf1 : lookupField fields "video_url".data = some (.str u))
    (hf2 : lookupField fields "description".data = some (.str desc))
    (hf3 : lookupField fields "questions".data = some (.arr qlines)) :
    normalizeFlashcard (Jv.obj fields) =
      .ok (trimL (buildFlashcardString u desc qlines)) := by
  have h0 : normalizeFlashcard (Jv.obj fields) =
      if (Jv.obj fields).isObjLike && (Jv.obj fields).member "video_url".data &&
          (Jv.obj fields).member "description".data &&
          (Jv.obj fields).member "questions".data then
        normalizeObjQuestions
          (jvTemplate (((Jv.obj fields).getKey "video_url".data).getD .null))
          (jvTemplate (((Jv.obj fields).getKey "description".data).getD .null))
          (((Jv.obj fields).getKey "questions".data).getD .null)
      else .ok (jvStringify (Jv.obj fields)) := rfl
  rw [h0, if_pos (by
    show ((Jv.obj fields).isObjLike && (Jv.obj fields).member "video_url".data &&
      (Jv.obj fields).member "description".data &&
      (Jv.obj fields).member "questions".data) = true
    rw [show (Jv.obj fields).member "video_url".data = true from by
        simp [Jv.member, hf1],
      show (Jv.obj fields).member "description".data = true from by
        simp [Jv.member, hf2],
      show (Jv.obj fields).member "questions".data = true from by
        simp [Jv.member, hf3]]
    rfl)]
  rw [show (Jv.obj fields).getKey "video_url".data = some (.str u) from hf1,
    show (Jv.obj fields).getKey "description".data = some (.str desc) from hf2,
    show (Jv.obj fields).getKey "questions".data = some (.arr qlines) from hf3]
  rfl

/-- Parsing the normalized string of an object flashcard recovers the video
URL and the trimmed description. -/
theorem parse_normalized (secure www : Bool) (vid desc : List Char)
    (qlines : List Jv) (h1 : vid ≠ []) (h2 : ∀ c ∈ vid, isWordHy c = true)
    (hdnl : '\n' ∉ desc)
    (hq : ∀ x ∈ qlines, ∃ s, x = Jv.str s ∧ '\n' ∉ s ∧
      descPfx.isPrefixOf (trimL s) = false) :
    (parseFlashcardContent (trimL (buildFlashcardString
        (mkYoutubeUrl secure www vid) desc qlines))).videoUrl =
      some (mkYoutubeUrl secure www vid) ∧
    (parseFlashcardContent (trimL (buildFlashcardString
        (mkYoutubeUrl secure www vid) desc qlines))).descriptionLines =
      [trimL desc] := by
  have hunl : '\n' ∉ mkYoutubeUrl secure www vid := no_newline_mkYoutubeUrl h2
  have hB : buildFlashcardString (mkYoutubeUrl secure www vid) desc qlines =
      (videoPfx ++ (mkYoutubeUrl secure www vid ++ '\n' ::
        ((descPfx ++ ' ' :: desc) ++ '\n' :: questionsPfx))) ++
        '\n' :: questionLinesBlock qlines := by
    unfold buildFlashcardString
    simp [List.append_assoc]
  have hA_shape : videoPfx ++ (mkYoutubeUrl secure www vid ++ '\n' ::
      ((descPfx ++ ' ' :: desc) ++ '\n' :: questionsPfx)) =
      (videoPfx ++ (mkYoutubeUrl secure www vid ++ '\n' ::
        ((descPfx ++ ' ' :: desc) ++ ['\n']))) ++ questionsPfx := by
    simp [List.append_assoc]
  have hA_end : trimEndL (videoPfx ++ (mkYoutubeUrl secure www vid ++ '\n' ::
      ((descPfx ++ ' ' :: desc) ++ '\n' :: questionsPfx))) =
      videoPfx ++ (mkYoutubeUrl secure www vid ++ '\n' ::
        ((descPfx ++ ' ' :: desc) ++ '\n' :: questionsPfx)) := by
    rw [hA_shape, trimEndL_ends_questionsPfx, ← hA_shape]
  have hsplit : ∃ T, trimL (buildFlashcardString
      (mkYoutubeUrl secure www vid) desc qlines) =
      (videoPfx ++ (mkYoutubeUrl secure www vid ++ '\n' ::
        ((descPfx ++ ' ' :: desc) ++ '\n' :: questionsPfx))) ++ T ∧
      (T = [] ∨ T = '\n' :: trimEndL (questionLinesBlock qlines)) := by
    rw [hB]
    by_cases hq0 : trimEndL ('\n' :: questionLinesBlock qlines) = []
    · refine ⟨[], ?_, Or.inl rfl⟩
      unfold trimL
      rw [trimEndL_append, if_pos hq0, hA_end, dropWhile_videoPfx]
      simp
    · refine ⟨'\n' :: trimEndL (questionLinesBlock qlines), ?_, Or.inr rfl⟩
      have hq1 : trimEndL (questionLinesBlock qlines) ≠ [] := by
        intro hc
        exact hq0 (by rw [trimEndL_ws_cons (by decide), if_pos hc])
      unfold trimL
      rw [trimEndL_append, if_neg hq0, trimEndL_ws_cons (by decide), if_neg hq1]
      rw [show (videoPfx ++ (mkYoutubeUrl secure www vid ++ '\n' ::
          ((descPfx ++ ' ' :: desc) ++ '\n' :: questionsPfx))) ++
          '\n' :: trimEndL (questionLinesBlock qlines) =
        videoPfx ++ ((mkYoutubeUrl secure www vid ++ '\n' ::
          ((descPfx ++ ' ' :: desc) ++ '\n' :: questionsPfx)) ++
          '\n' :: trimEndL (questionLinesBlock qlines)) from by
        simp [List.append_assoc]]
      rw [dropWhile_videoPfx]
  obtain ⟨T, hout, hTcase⟩ := hsplit
  have hQL : ∃ QL, splitNl ((videoPfx ++ (mkYoutubeUrl secure www vid ++ '\n' ::
      ((descPfx ++ ' ' :: desc) ++ '\n' :: questionsPfx))) ++ T) =
      [videoPfx ++ mkYoutubeUrl secure www vid, descPfx ++ ' ' :: desc,
        questionsPfx] ++ QL ∧
      ∀ l ∈ QL, descPfx.isPrefixOf (trimL l) = false := by
    have hnl1 : '\n' ∉ videoPfx ++ mkYoutubeUrl secure www vid := by
      intro hmem
      rcases List.mem_append.mp hmem with h | h
      · exact absurd h (by decide)
      · exact hunl h
    have hnl2 : '\n' ∉ descPfx ++ ' ' :: desc := by
      intro hmem
      rcases List.mem_append.mp hmem with h | h
      · exact absurd h (by decide)
      · rcases List.mem_cons.mp h with h | h
        · exact absurd h (by decide)
        · exact hdnl h
    have hshape2 : ∀ W, (videoPfx ++ (mkYoutubeUrl secure www vid ++ '\n' ::
        ((descPfx ++ ' ' :: desc) ++ '\n' :: questionsPfx))) ++ W =
        (videoPfx ++ mkYoutubeUrl secure www vid) ++ '\n' ::
          ((descPfx ++ ' ' :: desc) ++ '\n' :: (questionsPfx ++ W)) := by
      intro W
      simp [List.append_assoc]
    rcases hTcase with rfl | rfl
    · refine ⟨[], ?_, by simp⟩
      rw [hshape2, splitNl_append, splitNl_of_no_newline hnl1, splitNl_append,
        splitNl_of_no_newline hnl2]
      rw [show questionsPfx ++ ([] : List Char) = questionsPfx from by simp]
      rw [splitNl_of_no_newline (by decide)]
      rfl
    · refine ⟨splitNl (trimEndL (questionLinesBlock qlines)), ?_,
        questionLinesBlock_lines qlines hq⟩
      rw [hshape2, splitNl_append, splitNl_of_no_newline hnl1, splitNl_append,
        splitNl_of_no_newline hnl2, splitNl_append, splitNl_of_no_newline (by decide)]
      rfl
  obtain ⟨QL, hlines, hQLprop⟩ := hQL
  constructor
  · rw [parseFlashcardContent_videoUrl]
    rw [hout]
    rw [show (videoPfx ++ (mkYoutubeUrl secure www vid ++ '\n' ::
        ((descPfx ++ ' ' :: desc) ++ '\n' :: questionsPfx))) ++ T =
      videoPfx ++ (mkYoutubeUrl secure www vid ++ '\n' ::
        (((descPfx ++ ' ' :: desc) ++ '\n' :: questionsPfx) ++ T)) from by
      simp [List.append_assoc]]
    exact findYoutube_video_line secure www h1 h2 _
  · rw [parseFlashcardContent_descLines]
    unfold cleanedLines
    rw [hout, hlines]
    exact descMarked_cleanPipeline _ desc QL hQLprop

/-- C9 counterexample: a flashcard object whose (single) question line starts
with `Description:` is normalized verbatim, and the parser then routes that
question line into the description block as well — `descriptionLines` becomes
`["intro", "evil"]`, not the one-element list of the trimmed description.
The round trip as claimed fails for this delivered flashcard. -/
theorem normalize_parse_counterexample :
    normalizeFlashcard (Jv.obj
        [("video_url".data, .str "https://www.youtube.com/watch?v=abc".data),
         ("description".data, .str "intro".data),
         ("questions".data, .arr [.str "Description: evil".data])]) =
      .ok "Video: https://www.youtube.com/watch?v=abc\nDescription: intro\nQuestions:\nDescription: evil".data ∧
    (parseFlashcardContent
        "Video: https://www.youtube.com/watch?v=abc\nDescription: intro\nQuestions:\nDescription: evil".data).descriptionLines =
      ["intro".data, "evil".data] ∧
    (["intro".data, "evil".data] : List (List Char)) ≠ [trimL "intro".data] := by
  refine ⟨rfl, by decide, by decide⟩

/-- C9 (amended): for every flashcard delivered as an object whose
`video_url` is a YouTube watch URL, whose `description` is a single-line
non-empty string, and whose `questions` are single-line strings none of
which trim-starts with `Description:`, parsing the normalized string yields
exactly that video URL and the one-element description block holding the
trimmed description. -/
theorem normalize_parse_roundtrip (secure www : Bool) (vid desc : List Char)
    (qlines : List Jv) (fields : List (List Char × Jv))
    (h1 : vid ≠ []) (h2 : ∀ c ∈ vid, isWordHy c = true)
    (hdnl : '\n' ∉ desc) (_hdne : desc ≠ [])
    (hq : ∀ x ∈ qlines, ∃ s, x = Jv.str s ∧ '\n' ∉ s ∧
      descPfx.isPrefixOf (trimL s) = false)
    (hf1 : lookupField fields "video_url".data =
      some (.str (mkYoutubeUrl secure www vid)))
    (hf2 : lookupField fields "description".data = some (.str desc))
    (hf3 : lookupField fields "questions".data = some (.arr qlines)) :
    ∃ out, normalizeFlashcard (Jv.obj fields) = .ok out ∧
      (parseFlashcardContent out).videoUrl = some (mkYoutubeUrl secure www vid) ∧
      (parseFlashcardContent out).descriptionLines = [trimL desc] :=
  ⟨trimL (buildFlashcardString (mkYoutubeUrl secure www vid) desc qlines),
    normalizeFlashcard_obj fields _ desc qlines hf1 hf2 hf3,
    (parse_normalized secure www vid desc qlines h1 h2 hdnl hq).1,
    (parse_normalized secure www vid desc qlines h1 h2 hdnl hq).2⟩

theorem normalize_parse_roundtrip_witness :
    ∃ out, normalizeFlashcard (Jv.obj
        [("video_url".data, .str (mkYoutubeUrl true true "abc".data)),
         ("description".data, .str " intro ".data),
         ("questions".data, .arr [.str "1. Q".data])]) = .ok out ∧
      (parseFlashcardContent out).videoUrl =
        some (mkYoutubeUrl true true "abc".data) ∧
      (parseFlashcardContent out).descriptionLines = [trimL " intro ".data] :=
  normalize_parse_roundtrip true true "abc".data " intro ".data
    [.str "1. Q".data] _ (by decide) (by decide) (by decide) (by decide)
    (by
      intro x hx
      rw [List.mem_singleton] at hx
      subst hx
      exact ⟨"1. Q".data, rfl, by decide, by decide⟩)
    rfl rfl rfl

end Gameplan
